import Mathlib

/-!
# MyGUI LayerManager

A shallow embedding of `MyGUIEngine/src/MyGUI_LayerManager.cpp`.

Layers are heap objects reached through `ILayer*` pointers, so the embedding
keeps an explicit free store: an address is a natural number, `nullptr` is
`none`, `delete` empties a cell and dereferencing an empty cell is a fault.
-/

namespace MyGUI

/-! ## Data model -/

/-- An attachment node of a layer: it holds at most one layer item (the
address of the attached root widget). -/
structure ILayerNode where
  item : Option Nat
  deriving DecidableEq, Repr

/-- A layer object: its name (`getName`), the variant built by its factory and
its root nodes in local draw order (last = top). -/
structure ILayer where
  name : String
  type : String
  nodes : List ILayerNode
  deriving DecidableEq, Repr

/-- Pointer type `ILayer*`: `none` is `nullptr`, `some a` is the address `a`. -/
abbrev ILayerPtr := Option Nat

/-- Type `VectorLayer`, which is `std::vector<ILayer*>`. -/
abbrev VectorLayer := List ILayerPtr

/-- The free store holding the layer objects. Cell `a` is `some l` while the
object at address `a` is live and `none` once it has been deleted. -/
structure Store where
  cells : List (Option ILayer)
  deriving DecidableEq, Repr

/-- Dereference: the object at address `a`, `none` when it is not live. -/
def Store.get (h : Store) (a : Nat) : Option ILayer :=
  (h.cells[a]?).join

/-- The `delete` of the object at address `a`. -/
def Store.free (h : Store) (a : Nat) : Store :=
  ⟨h.cells.set a none⟩

/-- The `new` of an object: it is placed at an address never used before. -/
def Store.alloc (h : Store) (l : ILayer) : Nat × Store :=
  (h.cells.length, ⟨h.cells ++ [some l]⟩)

/-- Overwrite the live object at address `a` (a mutation through a pointer). -/
def Store.put (h : Store) (a : Nat) (l : ILayer) : Store :=
  ⟨h.cells.set a (some l)⟩

/-- Modelled from the spec: `Version` is declared outside this file; it is a
format version `major.minor`. -/
structure Version where
  major : Nat
  minor : Nat
  deriving DecidableEq, Repr

/-- Modelled from the spec: `operator <=` of `Version`, the order of
`major.minor` numbers ("format versions ≤ 1.0"). -/
def Version.le (a b : Version) : Bool :=
  decide (a.major < b.major) || (decide (a.major = b.major) && decide (a.minor ≤ b.minor))

namespace xml

/-- Modelled from the spec: `xml::Element` is declared outside this file; a
description element has a tag name, attributes and child elements. -/
inductive Element where
  | mk (name : String) (attributes : List (String × String)) (children : List Element)

/-- Tag name of an element. -/
def Element.getName : Element → String
  | .mk n _ _ => n

/-- Attributes of an element, in document order. -/
def Element.attributes : Element → List (String × String)
  | .mk _ a _ => a

/-- Child elements, in document order. -/
def Element.children : Element → List Element
  | .mk _ _ c => c

/-- Modelled from the spec: `findAttribute(_name, _value)`, the two-argument
form: `some v` when the attribute is present (the C++ returns `true` and
stores `v`), `none` when it is absent (the C++ returns `false`). -/
def Element.findAttribute? (e : Element) (key : String) : Option String :=
  e.attributes.lookup key

/-- Modelled from the spec: `findAttribute(_name)`, the one-argument form: the
value of the attribute, the empty string when it is absent. -/
def Element.findAttribute (e : Element) (key : String) : String :=
  (e.findAttribute? key).getD ""

end xml

/-- Modelled from the spec: `ILayerFactory` is declared outside this file; a
factory is the capability to construct a layer from a description element and
a format version. -/
structure ILayerFactory where
  createLayer : xml.Element → Version → ILayer

/-- Type `MapILayerFactory`, which is `std::map<std::string, ILayerFactory*>`: `find` is
application, `end()` is `none`. -/
abbrev MapILayerFactory := String → Option ILayerFactory

/-- The members of `LayerManager`, together with the free store its layer
pointers point into. -/
structure LayerManager where
  mIsInitialise : Bool
  mLayerKeepers : VectorLayer
  mLayerFactory : MapILayerFactory
  heap : Store

/-- How a call ends: it returns (`done`), a `MYGUI_ASSERT` throws leaving the
manager in state `s` (`raised`), or an invalid pointer is dereferenced or
deleted (`fault`). -/
inductive Outcome (α : Type) where
  | done (a : α)
  | raised (msg : String) (s : LayerManager)
  | fault

/-- Sequencing of calls: the first failure ends the computation. -/
def Outcome.bind {α β : Type} : Outcome α → (α → Outcome β) → Outcome β
  | .done a, f => f a
  | .raised m s, _ => .raised m s
  | .fault, _ => .fault

/-- Constant `XML_TYPE`. -/
def XML_TYPE : String := "Layer"

/-! ## merge, destroy, isExist -/

/-- Call `(*p)->getName()`: a fault on `nullptr` and on a deleted object. -/
def getName (h : Store) : ILayerPtr → Outcome String
  | none => .fault
  | some a =>
    match h.get a with
    | none => .fault
    | some l => .done l.name

/-- Statement `delete p` for a non-null pointer whose object has just been read. -/
def delete (h : Store) (a : Nat) : Outcome Store :=
  match h.get a with
  | none => .fault
  | some _ => .done (h.free a)

/-- Method `LayerManager::destroy`: logs the name of the layer, then deletes it. -/
def destroy (h : Store) : ILayerPtr → Outcome Store
  | none => .fault
  | some a => (getName h (some a)).bind fun _ => delete h a

/-- The inner loop of `merge` over `_layers` for the old layer at address
`old` named `name`: the first candidate with that name is deleted and `old`
takes its place. The result is the new `_layers`, the store and `find`. -/
def mergeFind (name : String) (old : Nat) :
    VectorLayer → Store → Outcome (VectorLayer × Store × Bool)
  | [], h => .done ([], h, false)
  | none :: _, _ => .fault
  | some c :: rest, h =>
    (getName h (some c)).bind fun n =>
      if name = n then
        (delete h c).bind fun h1 => .done (some old :: rest, h1, true)
      else
        (mergeFind name old rest h).bind fun r => .done (some c :: r.1, r.2.1, r.2.2)

/-- The outer loop of `merge` over `mLayerKeepers`. The result is
`mLayerKeepers` as the loop leaves it (every visited entry `nullptr`),
`_layers` and the store. -/
def mergeLoop : VectorLayer → VectorLayer → Store → Outcome (VectorLayer × VectorLayer × Store)
  | [], layers, h => .done ([], layers, h)
  | none :: keepers, layers, h =>
    (mergeLoop keepers layers h).bind fun r => .done (none :: r.1, r.2.1, r.2.2)
  | some a :: keepers, layers, h =>
    (getName h (some a)).bind fun name =>
      (mergeFind name a layers h).bind fun r =>
        (if r.2.2 then Outcome.done r.2.1 else destroy r.2.1 (some a)).bind fun h1 =>
          (mergeLoop keepers r.1 h1).bind fun q => .done (none :: q.1, q.2.1, q.2.2)

/-- Method `LayerManager::merge`. -/
def LayerManager.merge (s : LayerManager) (_layers : VectorLayer) : Outcome LayerManager :=
  (mergeLoop s.mLayerKeepers _layers s.heap).bind fun r =>
    .done { s with mLayerKeepers := r.2.1, heap := r.2.2 }

/-- The loop of `LayerManager::isExist` over `mLayerKeepers`. -/
def isExistLoop (h : Store) (_name : String) : VectorLayer → Outcome Bool
  | [] => .done false
  | p :: rest =>
    (getName h p).bind fun n =>
      if _name = n then .done true else isExistLoop h _name rest

/-- Method `LayerManager::isExist`. -/
def LayerManager.isExist (s : LayerManager) (_name : String) : Outcome Bool :=
  isExistLoop s.heap _name s.mLayerKeepers

/-! ## Reading the store -/

/-- Name of the object at address `a` (the empty string when it is not live). -/
def Store.nameAt (h : Store) (a : Nat) : String :=
  match h.get a with
  | some l => l.name
  | none => ""

/-- The object at address `a` is live. -/
def Store.live (h : Store) (a : Nat) : Prop := (h.get a).isSome = true

instance (h : Store) (a : Nat) : Decidable (h.live a) := by
  unfold Store.live; infer_instance

/-- Delete every object of a list of addresses, in order. -/
def Store.freeAll (h : Store) (as : List Nat) : Store := as.foldl Store.free h

/-! ## The result of merge on valid pointers -/

/-- What the inner loop of `merge` computes on valid pointers, with names read
through `nm`: the new `_layers` and the address of the deleted candidate, or
`none` when no candidate bears the name. -/
def findSlot (nm : Nat → String) (name : String) (old : Nat) :
    List Nat → Option (List Nat × Nat)
  | [] => none
  | c :: rest =>
    if name = nm c then some (old :: rest, c)
    else (findSlot nm name old rest).map fun r => (c :: r.1, r.2)

/-- What the outer loop of `merge` computes on valid pointers: the final
`_layers` and the addresses deleted, in order of deletion. -/
def reconcile (nm : Nat → String) : List Nat → List Nat → List Nat × List Nat
  | [], layers => (layers, [])
  | a :: keepers, layers =>
    match findSlot nm (nm a) a layers with
    | some r => ((reconcile nm keepers r.1).1, r.2 :: (reconcile nm keepers r.1).2)
    | none => ((reconcile nm keepers layers).1, a :: (reconcile nm keepers layers).2)

/-- The non-null entries of `mLayerKeepers`: the addresses of the active layers. -/
def LayerManager.active (s : LayerManager) : List Nat := s.mLayerKeepers.reduceOption

/-- The state `merge` returns on valid pointers. -/
def LayerManager.merged (s : LayerManager) (cand : List Nat) : LayerManager :=
  { s with
    mLayerKeepers := (reconcile s.heap.nameAt s.active cand).1.map some
    heap := s.heap.freeAll (reconcile s.heap.nameAt s.active cand).2 }

/-! ## _load -/

/-- Lines 111-116 of `_load`: the factory key of a layer element. `parseBool`
is `utility::parseBool`, declared outside this file. -/
def resolveType (parseBool : String → Bool) (layer : xml.Element) (_version : Version) :
    String :=
  if layer.findAttribute "type" = "" ∧ _version.le ⟨1, 0⟩ = true then
    if parseBool (layer.findAttribute "overlapped") = true then "OverlappedLayer"
    else "SimpleLayer"
  else layer.findAttribute "type"

/-- Lines 106-109 of `_load`: the assertion that no layer built so far bears
`name`. -/
def assertUnique (s : LayerManager) (name _file : String) : VectorLayer → Outcome Unit
  | [] => .done ()
  | p :: rest =>
    (getName s.heap p).bind fun n =>
      if n ≠ name then assertUnique s name _file rest
      else .raised ("Layer '" ++ name ++ "' already exist (file : " ++ _file ++ ")") s

/-- The main loop of `_load` over the `Layer` children: the layers built so
far and the manager (whose store receives the new objects). -/
def loadLoop (parseBool : String → Bool) (_file : String) (_version : Version) :
    List xml.Element → VectorLayer → LayerManager → Outcome (VectorLayer × LayerManager)
  | [], layers, s => .done (layers, s)
  | layer :: more, layers, s =>
    match layer.findAttribute? "name" with
    | none => loadLoop parseBool _file _version more layers s
    | some name =>
      (assertUnique s name _file layers).bind fun _ =>
        match s.mLayerFactory (resolveType parseBool layer _version) with
        | none =>
          .raised ("factory is '" ++ resolveType parseBool layer _version ++ "' not found") s
        | some item =>
          loadLoop parseBool _file _version more
            (layers ++ [some (s.heap.alloc (item.createLayer layer _version)).1])
            { s with heap := (s.heap.alloc (item.createLayer layer _version)).2 }

/-- Modelled from the spec: `getElementEnumerator()` with `next(XML_TYPE)`
visits, in document order, the children whose tag is `XML_TYPE`. -/
def layerElements (_node : xml.Element) : List xml.Element :=
  _node.children.filter fun e => decide (e.getName = XML_TYPE)

/-- Method `LayerManager::_load`. -/
def LayerManager._load (parseBool : String → Bool) (s : LayerManager) (_node : xml.Element)
    (_file : String) (_version : Version) : Outcome LayerManager :=
  (loadLoop parseBool _file _version (layerElements _node) [] s).bind fun r =>
    r.2.merge r.1

/-- The names of the elements that carry a `name` attribute, in order. -/
def layerNames (es : List xml.Element) : List String :=
  es.filterMap fun e => e.findAttribute? "name"

/-- The check `_load` performs on its data, as a function: no named element
bears a name seen before it, and the factory key of every named element is
registered. -/
def wellFormed (parseBool : String → Bool) (reg : MapILayerFactory) (_version : Version) :
    List String → List xml.Element → Bool
  | _, [] => true
  | seen, e :: es =>
    match e.findAttribute? "name" with
    | none => wellFormed parseBool reg _version seen es
    | some n =>
      decide (n ∉ seen) && ((reg (resolveType parseBool e _version)).isSome &&
        wellFormed parseBool reg _version (seen ++ [n]) es)

/-- The layer objects the factories build for the named elements, in order. -/
def builtLayers (parseBool : String → Bool) (reg : MapILayerFactory) (_version : Version)
    (es : List xml.Element) : List ILayer :=
  es.filterMap fun e =>
    match e.findAttribute? "name" with
    | none => none
    | some _ => (reg (resolveType parseBool e _version)).map fun f => f.createLayer e _version

/-- Every registered factory builds a layer named by the `name` attribute of
the element it is given. -/
def FactoriesNameLayers (reg : MapILayerFactory) : Prop :=
  ∀ t f, reg t = some f → ∀ (e : xml.Element) (v : Version) (n : String),
    e.findAttribute? "name" = some n → (f.createLayer e v).name = n

/-- The description `_node` without its children that lack the `name`
attribute. -/
def dropNameless : xml.Element → xml.Element
  | .mk n a c => .mk n a (c.filter fun e => (e.findAttribute? "name").isSome)

/-- The call does not end in a failed assertion. -/
def Outcome.NotRaised {α : Type} (o : Outcome α) : Prop := ∀ m s, o ≠ .raised m s

/-- Two elements that differ at most in their `overlapped` attribute. -/
def SameButOverlapped (e e2 : xml.Element) : Prop :=
  e.getName = e2.getName ∧
    ∀ k : String, k ≠ "overlapped" → e.findAttribute? k = e2.findAttribute? k

/-- No registered factory reads the `overlapped` attribute. -/
def FactoriesIgnoreOverlapped (reg : MapILayerFactory) (v : Version) : Prop :=
  ∀ t f, reg t = some f → ∀ e e2 : xml.Element, SameButOverlapped e e2 →
    f.createLayer e v = f.createLayer e2 v

/-! ## Widgets: attach and hit test -/

/-- Modelled from the spec: `Widget` is declared outside this file; a widget
has an address (its identity as a layer item) and knows whether it is a root
widget. -/
structure Widget where
  addr : Nat
  isRootWidget : Bool
  deriving DecidableEq, Repr

/-- Pointer type `WidgetPtr`: `none` is `nullptr`. -/
abbrev WidgetPtr := Option Widget

/-- Modelled from the spec: the effect of `Widget::detachFromLayer` on one
layer: the node holding the widget is released ("destroyed when the widget
detaches"); nothing changes when the widget is not attached there. -/
def ILayer.detachLayerItem (l : ILayer) (w : Nat) : ILayer :=
  { l with nodes := l.nodes.filter fun n => decide (n.item ≠ some w) }

/-- Modelled from the spec: `_item->detachFromLayer()`: the widget leaves the
node it is attached to, in whichever layer that is. -/
def Store.detachFromLayer (h : Store) (w : Nat) : Store :=
  ⟨h.cells.map (Option.map fun l => l.detachLayerItem w)⟩

/-- Modelled from the spec: `createItemNode(nullptr)`: the layer creates a
fresh, empty root node on top of its nodes; the result is its position and the
layer. -/
def ILayer.createItemNode (l : ILayer) : Nat × ILayer :=
  (l.nodes.length, { l with nodes := l.nodes ++ [⟨none⟩] })

/-- Modelled from the spec: `node->attachLayerItem(_item)` for the node at
position `node` of the layer. -/
def ILayer.attachLayerItem (l : ILayer) (node : Nat) (w : Nat) : ILayer :=
  { l with nodes := l.nodes.set node ⟨some w⟩ }

/-- The loop of `attachToLayerKeeper` over `mLayerKeepers`. -/
def attachLoop (_name : String) (w : Nat) : VectorLayer → Store → Outcome Store
  | [], h => .done h
  | none :: _, _ => .fault
  | some a :: rest, h =>
    match h.get a with
    | none => .fault
    | some l =>
      if _name = l.name then
        .done (h.put a (l.createItemNode.2.attachLayerItem l.createItemNode.1 w))
      else attachLoop _name w rest h

/-- Method `LayerManager::attachToLayerKeeper`. -/
def LayerManager.attachToLayerKeeper (s : LayerManager) (_name : String) (_item : WidgetPtr) :
    Outcome LayerManager :=
  match _item with
  | none => .raised "pointer must be valid" s
  | some w =>
    if w.isRootWidget = true then
      (attachLoop _name w.addr s.mLayerKeepers (s.heap.detachFromLayer w.addr)).bind fun h =>
        .done { s with heap := h }
    else .raised "attached widget must be root" s

/-- Method `LayerManager::detachFromLayer`. -/
def LayerManager.detachFromLayer (s : LayerManager) (_item : WidgetPtr) :
    Outcome LayerManager :=
  match _item with
  | none => .raised "pointer must be valid" s
  | some w => .done { s with heap := s.heap.detachFromLayer w.addr }

/-- The loop of `getWidgetFromPoint`, over `mLayerKeepers` from `rbegin()` to
`rend()`. `pick` is the virtual `ILayer::getLayerItemByPoint`. -/
def hitLoop (pick : ILayer → Int → Int → Option Nat) (h : Store) (_left _top : Int) :
    VectorLayer → Outcome (Option Nat)
  | [] => .done none
  | none :: _ => .fault
  | some a :: rest =>
    match h.get a with
    | none => .fault
    | some l =>
      match pick l _left _top with
      | some item => .done (some item)
      | none => hitLoop pick h _left _top rest

/-- Method `LayerManager::getWidgetFromPoint`. -/
def LayerManager.getWidgetFromPoint (pick : ILayer → Int → Int → Option Nat)
    (s : LayerManager) (_left _top : Int) : Outcome (Option Nat) :=
  hitLoop pick s.heap _left _top s.mLayerKeepers.reverse

/-- The widget `w` is attached to a node of layer `l`. -/
def ILayer.holds (l : ILayer) (w : Nat) : Prop := ∃ n ∈ l.nodes, n.item = some w

instance (l : ILayer) (w : Nat) : Decidable (l.holds w) := by
  unfold ILayer.holds; infer_instance

/-! ## Sample objects -/

/-- Modelled from the spec: the built-in factory of simple layers: the layer
is named by the `name` attribute and starts empty. -/
def SimpleLayerFactory : ILayerFactory :=
  ⟨fun e _ => ⟨e.findAttribute "name", "SimpleLayer", []⟩⟩

/-- Modelled from the spec: the built-in factory of overlapped layers: the
layer is named by the `name` attribute and starts empty. -/
def OverlappedLayerFactory : ILayerFactory :=
  ⟨fun e _ => ⟨e.findAttribute "name", "OverlappedLayer", []⟩⟩

/-- The registry after `initialise`. -/
def builtinFactories : MapILayerFactory := fun t =>
  if t = "SimpleLayer" then some SimpleLayerFactory
  else if t = "OverlappedLayer" then some OverlappedLayerFactory
  else none

/-- A store with four layers: `A` (holding widget 7) and `B`, then `C` and a
second layer named `A`. -/
def sampleStore : Store :=
  ⟨[some ⟨"A", "SimpleLayer", [⟨some 7⟩]⟩, some ⟨"B", "SimpleLayer", []⟩,
    some ⟨"C", "OverlappedLayer", []⟩, some ⟨"A", "OverlappedLayer", []⟩]⟩

/-- A manager whose active layers are `A` and `B` of `sampleStore`. -/
def sampleManager : LayerManager :=
  ⟨true, [some 0, some 1], builtinFactories, sampleStore⟩

/-- A manager with no layer. -/
def emptyManager : LayerManager :=
  ⟨true, [], builtinFactories, ⟨[]⟩⟩

/-- A `Layer` element with the given attributes. -/
def layerElement (attrs : List (String × String)) : xml.Element :=
  .mk "Layer" attrs []

/-- The description of the layers `A` (simple) and `B` (overlapped). -/
def sampleDescription : xml.Element :=
  .mk "MyGUI" [("type", "Layer")]
    [layerElement [("name", "A"), ("type", "SimpleLayer")],
     layerElement [("name", "B"), ("type", "OverlappedLayer")]]

/-- A sample `parseBool`: `true` and `1` are true. -/
def sampleParseBool (v : String) : Bool := decide (v = "true") || decide (v = "1")

/-- The layer answers a hit test only with widgets attached to its nodes. -/
def PickReportsAttached (pick : ILayer → Int → Int → Option Nat) : Prop :=
  ∀ l x y i, pick l x y = some i → l.holds i

/-- The items the active layers report at a point, in sequence order. -/
def LayerManager.reports (pick : ILayer → Int → Int → Option Nat) (s : LayerManager)
    (x y : Int) : List Nat :=
  s.active.filterMap fun p => (s.heap.get p).bind fun l => pick l x y

/-- A store with the layers `Background` (holding widget 5) and `Foreground`
(holding widget 6). -/
def overlapStore : Store :=
  ⟨[some ⟨"Background", "SimpleLayer", [⟨some 5⟩]⟩,
    some ⟨"Foreground", "OverlappedLayer", [⟨some 6⟩]⟩]⟩

/-- A manager whose active layers are `Background`, `Foreground`. -/
def overlapManager : LayerManager :=
  ⟨true, [some 0, some 1], builtinFactories, overlapStore⟩

/-- A sample layer answer to a hit test: the topmost attached widget. -/
def topItem (l : ILayer) (_ _ : Int) : Option Nat :=
  (l.nodes.reverse.filterMap fun n => n.item).head?

/-! ## Factory registry, lifecycle, rendering -/

/-- Method `LayerManager::addLayerFactory`. -/
def LayerManager.addLayerFactory (s : LayerManager) (_name : String) (_factory : ILayerFactory) :
    Outcome LayerManager :=
  match s.mLayerFactory _name with
  | some _ => .raised ("factory is '" ++ _name ++ "' already exist") s
  | none =>
    .done { s with
      mLayerFactory := fun k => if k = _name then some _factory else s.mLayerFactory k }

/-- Method `LayerManager::removeLayerFactory(const std::string&, bool)`. The
factory objects are not kept in the store, so the `delete` of the factory under
`_delete` leaves no trace in the state. -/
def LayerManager.removeLayerFactory (s : LayerManager) (_name : String) (_delete : Bool) :
    Outcome LayerManager :=
  match s.mLayerFactory _name with
  | none => .raised ("factory is '" ++ _name ++ "' not found") s
  | some _ =>
    .done { s with mLayerFactory := fun k => if k = _name then none else s.mLayerFactory k }

/-- The loop of `LayerManager::clear` over `mLayerKeepers`. -/
def clearLoop : VectorLayer → Store → Outcome Store
  | [], h => .done h
  | p :: rest, h => (destroy h p).bind fun h1 => clearLoop rest h1

/-- Method `LayerManager::clear`. -/
def LayerManager.clear (s : LayerManager) : Outcome LayerManager :=
  (clearLoop s.mLayerKeepers s.heap).bind fun h =>
    .done { s with mLayerKeepers := [], heap := h }

/-- Method `LayerManager::initialise`. The registrations with the render, widget
and resource managers are calls on other singletons and leave the members of
this manager as they are. -/
def LayerManager.initialise (s : LayerManager) : Outcome LayerManager :=
  if s.mIsInitialise = false then
    (s.addLayerFactory "SimpleLayer" SimpleLayerFactory).bind fun s1 =>
      (s1.addLayerFactory "OverlappedLayer" OverlappedLayerFactory).bind fun s2 =>
        .done { s2 with mIsInitialise := true }
  else .raised "LayerManager initialised twice" s

/-- Method `LayerManager::shutdown`. -/
def LayerManager.shutdown (s : LayerManager) : Outcome LayerManager :=
  if s.mIsInitialise = false then .done s
  else
    (s.removeLayerFactory "OverlappedLayer" true).bind fun s1 =>
      (s1.removeLayerFactory "SimpleLayer" true).bind fun s2 =>
        s2.clear.bind fun s3 => .done { s3 with mIsInitialise := false }

/-- The loop of `LayerManager::doRender` over `mLayerKeepers`: the calls
`(*iter)->doRender(_update)` it makes, as pairs of the layer address and the
flag passed. Modelled from the spec: the render step of a layer draws; it
changes neither the name, the variant nor the nodes of the layer. -/
def doRenderLoop (h : Store) (_update : Bool) : VectorLayer → Outcome (List (Nat × Bool))
  | [] => .done []
  | none :: _ => .fault
  | some a :: rest =>
    match h.get a with
    | none => .fault
    | some _ => (doRenderLoop h _update rest).bind fun t => .done ((a, _update) :: t)

/-- Method `LayerManager::doRender`: the render steps invoked, in order. -/
def LayerManager.doRender (s : LayerManager) (_update : Bool) : Outcome (List (Nat × Bool)) :=
  doRenderLoop s.heap _update s.mLayerKeepers

/-! ## Sequences of operations -/

/-- The operations a client performs on the manager between `initialise` and
`shutdown`. -/
inductive Op where
  | load (_node : xml.Element) (_file : String) (_version : Version)
  | clear
  | attach (_name : String) (_item : WidgetPtr)
  | detach (_item : WidgetPtr)
  | render (_update : Bool)
  | hitTest (_left _top : Int)

/-- The state a call leaves behind: the state returned, or the state at the
failed assertion; there is none after a fault. -/
def Outcome.after : Outcome LayerManager → Option LayerManager
  | .done s => some s
  | .raised _ s => some s
  | .fault => none

/-- The state a query leaves behind: the state it was called in. -/
def Outcome.afterQuery {α : Type} (s : LayerManager) : Outcome α → Option LayerManager
  | .done _ => some s
  | .raised _ s2 => some s2
  | .fault => none

/-- The state after one operation. -/
def LayerManager.perform (parseBool : String → Bool) (pick : ILayer → Int → Int → Option Nat)
    (s : LayerManager) : Op → Option LayerManager
  | .load _node _file _version => (s._load parseBool _node _file _version).after
  | .clear => s.clear.after
  | .attach _name _item => (s.attachToLayerKeeper _name _item).after
  | .detach _item => (s.detachFromLayer _item).after
  | .render _update => (s.doRender _update).afterQuery s
  | .hitTest _left _top => (s.getWidgetFromPoint pick _left _top).afterQuery s

/-- The state after a sequence of operations, `none` when one of them faults. -/
def LayerManager.run (parseBool : String → Bool) (pick : ILayer → Int → Int → Option Nat) :
    List Op → LayerManager → Option LayerManager
  | [], s => some s
  | op :: ops, s =>
    match s.perform parseBool pick op with
    | none => none
    | some s2 => LayerManager.run parseBool pick ops s2

/-- The invariant of the active sequence: no entry is null, every entry is a
live layer and no two entries bear the same name. -/
def LayerManager.Steady (s : LayerManager) : Prop :=
  s.mLayerKeepers = s.active.map some ∧ (∀ a ∈ s.active, s.heap.live a) ∧
    (s.active.map s.heap.nameAt).Nodup

/-- A manager whose two active layers are both named `A`, with a candidate
named `A` beside them in the store. -/
def duplicateManager : LayerManager :=
  ⟨true, [some 0, some 1], builtinFactories,
    ⟨[some ⟨"A", "SimpleLayer", [⟨some 7⟩]⟩, some ⟨"A", "OverlappedLayer", []⟩,
      some ⟨"A", "SimpleLayer", []⟩]⟩⟩

/-- A manager that is initialised, holds one layer, and whose registry lacks
the key `SimpleLayer`. -/
def halfRegistered : LayerManager :=
  ⟨true, [some 0], fun t => if t = "OverlappedLayer" then some OverlappedLayerFactory else none,
    ⟨[some ⟨"A", "OverlappedLayer", []⟩]⟩⟩

/-- A manager that is not initialised and whose registry already holds the key
`SimpleLayer`. -/
def earlyRegistered : LayerManager :=
  ⟨false, [], fun t => if t = "SimpleLayer" then some SimpleLayerFactory else none, ⟨[]⟩⟩

/-- A manager before `initialise`: no layer, no factory. -/
def freshManager : LayerManager :=
  ⟨false, [], fun _ => none, ⟨[]⟩⟩

/-! ## Lemmas on the store -/

@[simp] theorem Outcome.bind_done {α β : Type} (a : α) (f : α → Outcome β) :
    (Outcome.done a).bind f = f a := rfl
@[simp] theorem Outcome.bind_raised {α β : Type} (m : String) (s : LayerManager)
    (f : α → Outcome β) : (Outcome.raised m s : Outcome α).bind f = .raised m s := rfl
@[simp] theorem Outcome.bind_fault {α β : Type} (f : α → Outcome β) :
    (Outcome.fault : Outcome α).bind f = .fault := rfl

theorem Store.get_free (h : Store) (a b : Nat) :
    (h.free a).get b = if a = b then none else h.get b := by
  unfold Store.free Store.get
  simp only [List.getElem?_set]
  by_cases hab : a = b
  · subst hab
    by_cases hlt : a < h.cells.length <;> simp [hlt]
  · simp [hab]

theorem Store.get_freeAll (as : List Nat) (h : Store) (b : Nat) :
    (h.freeAll as).get b = if b ∈ as then none else h.get b := by
  induction as generalizing h with
  | nil => simp [Store.freeAll]
  | cons a as ih =>
    have := ih (h.free a)
    simp only [Store.freeAll, List.foldl_cons] at this ⊢
    rw [this, Store.get_free]
    by_cases h1 : b ∈ as
    · simp [h1]
    · by_cases h2 : a = b
      · simp [h2]
      · have h3 : ¬ b = a := fun e => h2 e.symm
        simp [h1, h2, h3]

theorem Store.get_alloc (h : Store) (l : ILayer) (b : Nat) :
    (h.alloc l).2.get b = if b = h.cells.length then some l else h.get b := by
  unfold Store.alloc Store.get
  by_cases hb : b = h.cells.length
  · subst hb; simp
  · simp only [hb, if_false]
    rcases Nat.lt_or_gt_of_ne hb with hlt | hgt
    · rw [List.getElem?_append_left hlt]
    · rw [List.getElem?_eq_none (by simp; omega), List.getElem?_eq_none (by omega)]

theorem Store.get_fresh (h : Store) : h.get h.cells.length = none := by
  simp [Store.get]

theorem Store.live_lt {h : Store} {a : Nat} (hl : h.live a) : a < h.cells.length := by
  by_contra hc
  have : h.get a = none := by
    unfold Store.get; rw [List.getElem?_eq_none (by omega)]; rfl
  simp [Store.live, this] at hl

theorem Store.live_iff {h : Store} {a : Nat} : h.live a ↔ ∃ l, h.get a = some l := by
  unfold Store.live; exact Option.isSome_iff_exists

theorem getName_live {h : Store} {a : Nat} (hl : h.live a) :
    getName h (some a) = .done (h.nameAt a) := by
  obtain ⟨l, hl⟩ := Store.live_iff.1 hl
  simp [getName, Store.nameAt, hl]

theorem delete_live {h : Store} {a : Nat} (hl : h.live a) :
    delete h a = .done (h.free a) := by
  obtain ⟨l, hl⟩ := Store.live_iff.1 hl
  simp [delete, hl]

theorem destroy_live {h : Store} {a : Nat} (hl : h.live a) :
    destroy h (some a) = .done (h.free a) := by
  simp [destroy, getName_live hl, delete_live hl]

/-! ## merge computes `reconcile` -/

theorem findSlot_some {nm : Nat → String} {name : String} {old : Nat} {layers : List Nat}
    {r : List Nat × Nat} (h : findSlot nm name old layers = some r) :
    ∃ pre post, layers = pre ++ r.2 :: post ∧ r.1 = pre ++ old :: post ∧
      nm r.2 = name ∧ ∀ x ∈ pre, nm x ≠ name := by
  induction layers generalizing r with
  | nil => simp [findSlot] at h
  | cons c rest ih =>
    unfold findSlot at h
    by_cases hc : name = nm c
    · simp only [hc, if_true, Option.some.injEq] at h
      subst h
      exact ⟨[], rest, by simp, by simp, by simp [hc], by simp⟩
    · simp only [hc, if_false, Option.map_eq_some'] at h
      obtain ⟨q, hq, rfl⟩ := h
      obtain ⟨pre, post, h1, h2, h3, h4⟩ := ih hq
      refine ⟨c :: pre, post, by simp [h1], by simp [h2], h3, ?_⟩
      intro x hx
      rcases List.mem_cons.1 hx with rfl | hx
      · exact fun e => hc e.symm
      · exact h4 x hx

theorem findSlot_none {nm : Nat → String} {name : String} {old : Nat} {layers : List Nat} :
    findSlot nm name old layers = none ↔ ∀ x ∈ layers, nm x ≠ name := by
  induction layers with
  | nil => simp [findSlot]
  | cons c rest ih =>
    unfold findSlot
    by_cases hc : name = nm c
    · simp [hc]
    · have hc' : ¬ nm c = name := fun e => hc e.symm
      simp [hc, hc', ih]

/-- The inner loop of `merge` on live candidates computes `findSlot`. -/
theorem mergeFind_eq (nm : Nat → String) (h : Store) (name : String) (old : Nat)
    (layers : List Nat) (hl : ∀ c ∈ layers, h.live c ∧ h.nameAt c = nm c) :
    mergeFind name old (layers.map some) h =
      match findSlot nm name old layers with
      | some r => .done (r.1.map some, h.free r.2, true)
      | none => .done (layers.map some, h, false) := by
  induction layers with
  | nil => simp [mergeFind, findSlot]
  | cons c rest ih =>
    have hc : h.live c := (hl c (by simp)).1
    have hcn : h.nameAt c = nm c := (hl c (by simp)).2
    have ih := ih (fun x hx => hl x (by simp [hx]))
    simp only [List.map_cons, mergeFind, getName_live hc, Outcome.bind_done, findSlot, hcn]
    by_cases hn : name = nm c
    · simp [hn, delete_live hc]
    · simp only [hn, if_false, ih]
      cases hf : findSlot nm name old rest <;> simp

theorem Store.live_free {h : Store} {a b : Nat} (hab : a ≠ b) (hl : h.live b) :
    (h.free a).live b := by
  simpa [Store.live, Store.get_free, hab] using hl

theorem Store.nameAt_free {h : Store} {a b : Nat} (hab : a ≠ b) :
    (h.free a).nameAt b = h.nameAt b := by
  simp [Store.nameAt, Store.get_free, hab]

theorem nodup_replace {a c : Nat} {ks pre post : List Nat}
    (ha : a ∉ ks ++ (pre ++ c :: post)) (hn : (ks ++ (pre ++ c :: post)).Nodup) :
    (ks ++ (pre ++ a :: post)).Nodup ∧ c ∉ ks ++ (pre ++ a :: post) := by
  have p1 : (ks ++ (pre ++ c :: post)).Perm (c :: (ks ++ pre ++ post)) := by
    rw [← List.append_assoc]; exact List.perm_middle
  have p2 : (ks ++ (pre ++ a :: post)).Perm (a :: (ks ++ pre ++ post)) := by
    rw [← List.append_assoc]; exact List.perm_middle
  have hn1 := (p1.nodup_iff).1 hn
  have ha1 : a ∉ c :: (ks ++ pre ++ post) := fun hm => ha (p1.mem_iff.2 hm)
  rw [List.nodup_cons] at hn1
  rw [List.mem_cons, not_or] at ha1
  refine ⟨p2.nodup_iff.2 (List.nodup_cons.2 ⟨ha1.2, hn1.2⟩), ?_⟩
  intro hm
  rcases List.mem_cons.1 (p2.mem_iff.1 hm) with e | hm
  · exact ha1.1 e.symm
  · exact hn1.1 hm

/-- The outer loop of `merge` computes `reconcile`, when the non-null entries
of `mLayerKeepers` and the candidates are live and pairwise distinct. -/
theorem mergeLoop_eq (nm : Nat → String) (keepers : VectorLayer) (layers : List Nat)
    (h : Store)
    (hl : ∀ a ∈ keepers.reduceOption ++ layers, h.live a ∧ h.nameAt a = nm a)
    (hnd : (keepers.reduceOption ++ layers).Nodup) :
    mergeLoop keepers (layers.map some) h =
      .done (keepers.map (fun _ => none),
        (reconcile nm keepers.reduceOption layers).1.map some,
        h.freeAll (reconcile nm keepers.reduceOption layers).2) := by
  induction keepers generalizing layers h with
  | nil => simp [mergeLoop, reconcile, Store.freeAll]
  | cons p keepers ih =>
    cases p with
    | none =>
      simp only [List.reduceOption_cons_of_none] at hl hnd ⊢
      simp [mergeLoop, ih layers h hl hnd]
    | some a =>
      simp only [List.reduceOption_cons_of_some, List.cons_append, List.mem_cons,
        List.nodup_cons] at hl hnd ⊢
      have ha : h.live a := (hl a (Or.inl rfl)).1
      have han : h.nameAt a = nm a := (hl a (Or.inl rfl)).2
      have hlay : ∀ c ∈ layers, h.live c ∧ h.nameAt c = nm c :=
        fun c hc => hl c (Or.inr (List.mem_append_right _ hc))
      simp only [mergeLoop, getName_live ha, Outcome.bind_done, han,
        mergeFind_eq nm h (nm a) a layers hlay, reconcile]
      cases hf : findSlot nm (nm a) a layers with
      | none =>
        simp only [Outcome.bind_done, Bool.false_eq_true, if_false, destroy_live ha]
        have hl2 : ∀ x ∈ keepers.reduceOption ++ layers,
            (h.free a).live x ∧ (h.free a).nameAt x = nm x := by
          intro x hx
          have hax : a ≠ x := fun e => hnd.1 (e ▸ hx)
          exact ⟨Store.live_free hax (hl x (Or.inr hx)).1,
            (Store.nameAt_free hax).trans (hl x (Or.inr hx)).2⟩
        rw [ih layers (h.free a) hl2 hnd.2]
        simp [Store.freeAll]
      | some r =>
        obtain ⟨pre, post, h1, h2, h3, h4⟩ := findSlot_some hf
        simp only [Outcome.bind_done, if_true]
        have hnd2 : (keepers.reduceOption ++ r.1).Nodup ∧ r.2 ∉ keepers.reduceOption ++ r.1 := by
          rw [h1] at hnd
          rw [h2]
          exact nodup_replace hnd.1 hnd.2
        have hl2 : ∀ x ∈ keepers.reduceOption ++ r.1,
            (h.free r.2).live x ∧ (h.free r.2).nameAt x = nm x := by
          intro x hx
          have hax : r.2 ≠ x := fun e => hnd2.2 (e ▸ hx)
          have hx' : x = a ∨ x ∈ keepers.reduceOption ++ layers := by
            rw [h2] at hx; rw [h1]
            simp only [List.mem_append, List.mem_cons] at hx ⊢
            tauto
          exact ⟨Store.live_free hax (hl x hx').1, (Store.nameAt_free hax).trans (hl x hx').2⟩
        rw [ih r.1 (h.free r.2) hl2 hnd2.1]
        simp [Store.freeAll]

/-! ## Properties of `reconcile` -/

theorem findSlot_names {nm : Nat → String} {old : Nat} {layers : List Nat}
    {r : List Nat × Nat} (h : findSlot nm (nm old) old layers = some r) :
    r.1.map nm = layers.map nm := by
  obtain ⟨pre, post, h1, h2, h3, -⟩ := findSlot_some h
  rw [h1, h2]; simp [h3]

theorem findSlot_set {nm : Nat → String} {name : String} {old : Nat} {layers : List Nat}
    {r : List Nat × Nat} (h : findSlot nm name old layers = some r) :
    ∃ j, layers[j]? = some r.2 ∧ r.1 = layers.set j old ∧ nm r.2 = name ∧
      ∀ k x, k < j → layers[k]? = some x → nm x ≠ name := by
  obtain ⟨pre, post, h1, h2, h3, h4⟩ := findSlot_some h
  refine ⟨pre.length, ?_, ?_, h3, ?_⟩
  · rw [h1, List.getElem?_append_right (Nat.le_refl _)]; simp
  · rw [h1, h2]; simp
  · intro k x hk hx
    rw [h1, List.getElem?_append_left hk] at hx
    exact h4 x (List.getElem?_mem hx)

theorem reconcile_names (nm : Nat → String) (keepers layers : List Nat) :
    (reconcile nm keepers layers).1.map nm = layers.map nm := by
  induction keepers generalizing layers with
  | nil => rfl
  | cons a keepers ih =>
    unfold reconcile
    cases hf : findSlot nm (nm a) a layers with
    | none => simpa using ih layers
    | some r => simpa [findSlot_names hf] using ih r.1

theorem reconcile_length (nm : Nat → String) (keepers layers : List Nat) :
    (reconcile nm keepers layers).1.length = layers.length := by
  simpa using congrArg List.length (reconcile_names nm keepers layers)

/-- Every object is either kept or deleted, exactly once. -/
theorem reconcile_perm (nm : Nat → String) (keepers layers : List Nat) :
    ((reconcile nm keepers layers).1 ++ (reconcile nm keepers layers).2).Perm
      (keepers ++ layers) := by
  induction keepers generalizing layers with
  | nil => simp [reconcile]
  | cons a keepers ih =>
    unfold reconcile
    cases hf : findSlot nm (nm a) a layers with
    | none =>
      simp only [List.cons_append]
      exact List.perm_middle.trans (List.Perm.cons a (ih layers))
    | some r =>
      obtain ⟨pre, post, h1, h2, -, -⟩ := findSlot_some hf
      simp only [List.cons_append]
      refine List.perm_middle.trans ((List.Perm.cons r.2 (ih r.1)).trans ?_)
      rw [h1, h2]
      have p1 : (r.2 :: (keepers ++ (pre ++ a :: post))).Perm
          (r.2 :: a :: (keepers ++ pre ++ post)) := by
        refine List.Perm.cons _ ?_
        rw [← List.append_assoc]; exact List.perm_middle
      have p2 : (a :: (keepers ++ (pre ++ r.2 :: post))).Perm
          (a :: r.2 :: (keepers ++ pre ++ post)) := by
        refine List.Perm.cons _ ?_
        rw [← List.append_assoc]; exact List.perm_middle
      exact p1.trans ((List.Perm.swap _ _ _).trans p2.symm)

theorem reconcile_disjoint {nm : Nat → String} {keepers layers : List Nat}
    (hnd : (keepers ++ layers).Nodup) {x : Nat}
    (hx : x ∈ (reconcile nm keepers layers).1) : x ∉ (reconcile nm keepers layers).2 := by
  have hn := (reconcile_perm nm keepers layers).nodup_iff.2 hnd
  exact fun hx2 => (List.nodup_append.1 hn).2.2 hx hx2

/-- An old layer whose name no candidate bears is deleted. -/
theorem reconcile_stale (nm : Nat → String) (keepers layers : List Nat) (a : Nat)
    (ha : a ∈ keepers) (hs : ∀ x ∈ layers, nm x ≠ nm a) :
    a ∈ (reconcile nm keepers layers).2 := by
  induction keepers generalizing layers with
  | nil => simp at ha
  | cons b keepers ih =>
    unfold reconcile
    rcases List.mem_cons.1 ha with rfl | ha
    · rw [findSlot_none.2 hs]; simp
    · cases hf : findSlot nm (nm b) b layers with
      | none => exact List.mem_cons_of_mem _ (ih layers ha hs)
      | some r =>
        refine List.mem_cons_of_mem _ (ih r.1 ha ?_)
        intro x hx
        have hm : nm x ∈ layers.map nm := by
          rw [← findSlot_names hf]; exact List.mem_map_of_mem nm hx
        obtain ⟨y, hy, hxy⟩ := List.mem_map.1 hm
        rw [← hxy]; exact hs y hy

/-- A candidate whose name no old layer bears keeps its position. -/
theorem reconcile_new (nm : Nat → String) (keepers layers : List Nat) (i c : Nat)
    (hc : layers[i]? = some c) (hs : ∀ a ∈ keepers, nm a ≠ nm c) :
    (reconcile nm keepers layers).1[i]? = some c := by
  induction keepers generalizing layers with
  | nil => simpa [reconcile] using hc
  | cons b keepers ih =>
    unfold reconcile
    have hs' : ∀ a ∈ keepers, nm a ≠ nm c := fun a ha => hs a (List.mem_cons_of_mem _ ha)
    cases hf : findSlot nm (nm b) b layers with
    | none => exact ih layers hc hs'
    | some r =>
      obtain ⟨j, h1, h2, h3, -⟩ := findSlot_set hf
      refine ih r.1 ?_ hs'
      rw [h2, List.getElem?_set_ne, hc]
      rintro rfl
      rw [h1] at hc
      injection hc with hc
      exact hs b (by simp) (hc ▸ h3.symm)

/-- With unique names among the old layers, an old layer takes the first
position whose candidate bears its name, and that candidate is deleted. -/
theorem reconcile_reuse (nm : Nat → String) (keepers layers : List Nat) (i a c : Nat)
    (hu : (keepers.map nm).Nodup) (ha : a ∈ keepers) (hc : layers[i]? = some c)
    (hn : nm a = nm c) (hfirst : ∀ k x, k < i → layers[k]? = some x → nm x ≠ nm c) :
    (reconcile nm keepers layers).1[i]? = some a ∧ c ∈ (reconcile nm keepers layers).2 := by
  induction keepers generalizing layers with
  | nil => simp at ha
  | cons b keepers ih =>
    unfold reconcile
    rw [List.map_cons, List.nodup_cons] at hu
    rcases List.mem_cons.1 ha with rfl | ha
    · cases hf : findSlot nm (nm a) a layers with
      | none =>
        exact absurd hn.symm (findSlot_none.1 hf c (List.getElem?_mem hc))
      | some r =>
        obtain ⟨j, h1, h2, h3, h4⟩ := findSlot_set hf
        have hji : j = i := by
          rcases Nat.lt_trichotomy j i with hlt | heq | hgt
          · exact absurd (h3.trans hn) (hfirst j r.2 hlt h1)
          · exact heq
          · exact absurd hn.symm (h4 i c hgt hc)
        subst hji
        have hrc : r.2 = c := by rw [h1] at hc; injection hc
        refine ⟨?_, by simp [hrc]⟩
        refine reconcile_new nm keepers r.1 j a ?_ ?_
        · rw [h2, List.getElem?_set_self (by
            exact (List.getElem?_eq_some.1 h1).1)]
        · intro x hx e
          exact hu.1 (e ▸ List.mem_map_of_mem nm hx)
    · have hba : nm b ≠ nm a := fun e => hu.1 (e ▸ List.mem_map_of_mem nm ha)
      cases hf : findSlot nm (nm b) b layers with
      | none =>
        obtain ⟨h1, h2⟩ := ih layers hu.2 ha hc hfirst
        exact ⟨h1, List.mem_cons_of_mem _ h2⟩
      | some r =>
        obtain ⟨j, h1, h2, h3, h4⟩ := findSlot_set hf
        have hji : j ≠ i := by
          rintro rfl
          rw [h1] at hc; injection hc with hc
          exact hba (h3.symm.trans ((congrArg nm hc).trans hn.symm))
        have hc2 : r.1[i]? = some c := by rw [h2, List.getElem?_set_ne hji, hc]
        have hfirst2 : ∀ k x, k < i → r.1[k]? = some x → nm x ≠ nm c := by
          intro k x hk hx
          rw [h2] at hx
          by_cases hjk : j = k
          · subst hjk
            rw [List.getElem?_set_self (List.getElem?_eq_some.1 h1).1] at hx
            injection hx with hx
            rw [← hx, ← hn]; exact hba
          · rw [List.getElem?_set_ne hjk] at hx
            exact hfirst k x hk hx
        obtain ⟨h5, h6⟩ := ih r.1 hu.2 ha hc2 hfirst2
        exact ⟨h5, List.mem_cons_of_mem _ h6⟩

/-! ## merge on a manager state -/

theorem mem_active {s : LayerManager} {a : Nat} : a ∈ s.active ↔ some a ∈ s.mLayerKeepers := by
  simp [LayerManager.active, List.reduceOption_mem_iff]

/-- On valid pointers `merge` returns `merged`: the active layers and the
candidates are live, pairwise distinct objects. -/
theorem merge_eq (s : LayerManager) (cand : List Nat)
    (hlive : ∀ a ∈ s.active ++ cand, s.heap.live a) (hdist : (s.active ++ cand).Nodup) :
    s.merge (cand.map some) = .done (s.merged cand) := by
  unfold LayerManager.merge
  rw [mergeLoop_eq s.heap.nameAt s.mLayerKeepers cand s.heap (fun a ha => ⟨hlive a ha, rfl⟩) hdist]
  rfl

theorem merged_get_kept {s : LayerManager} {cand : List Nat} (hdist : (s.active ++ cand).Nodup)
    {x : Nat} (hx : x ∈ (reconcile s.heap.nameAt s.active cand).1) :
    (s.merged cand).heap.get x = s.heap.get x := by
  simp [LayerManager.merged, Store.get_freeAll, reconcile_disjoint hdist hx]

theorem merged_get_freed {s : LayerManager} {cand : List Nat}
    {x : Nat} (hx : x ∈ (reconcile s.heap.nameAt s.active cand).2) :
    (s.merged cand).heap.get x = none := by
  simp [LayerManager.merged, Store.get_freeAll, hx]

theorem kept_mem {s : LayerManager} {cand : List Nat}
    {x : Nat} (hx : x ∈ (reconcile s.heap.nameAt s.active cand).1) : x ∈ s.active ++ cand :=
  (reconcile_perm _ _ _).mem_iff.1 (List.mem_append_left _ hx)

theorem nameAt_congr {h h2 : Store} {a : Nat} (e : h2.get a = h.get a) :
    h2.nameAt a = h.nameAt a := by
  simp [Store.nameAt, e]

theorem live_congr {h h2 : Store} {a : Nat} (e : h2.get a = h.get a) (hl : h.live a) :
    h2.live a := by
  simpa [Store.live, e] using hl

theorem isExistLoop_eq (h : Store) (n : String) (ps : List Nat) (hl : ∀ p ∈ ps, h.live p) :
    isExistLoop h n (ps.map some) = .done (decide (n ∈ ps.map h.nameAt)) := by
  induction ps with
  | nil => simp [isExistLoop]
  | cons p ps ih =>
    have ih := ih (fun x hx => hl x (List.mem_cons_of_mem _ hx))
    simp only [List.map_cons, isExistLoop, getName_live (hl p (by simp)), Outcome.bind_done, ih]
    by_cases hn : n = h.nameAt p
    · simp [hn]
    · simp [hn]

theorem nodup_first {α β : Type} (f : α → β) {l : List α} (hu : (l.map f).Nodup) {i k : Nat}
    {c x : α} (hc : l[i]? = some c) (hx : l[k]? = some x) (hki : k < i) : f x ≠ f c := by
  intro e
  have h1 : (l.map f)[i]? = some (f c) := by simp [hc]
  have h2 : (l.map f)[k]? = some (f c) := by simp [hx, e]
  obtain ⟨hi, h1⟩ := List.getElem?_eq_some.1 h1
  obtain ⟨hk, h2⟩ := List.getElem?_eq_some.1 h2
  have := (List.Nodup.getElem_inj_iff hu).1 (h1.trans h2.symm)
  omega

/-- The state after `merge` on live, pairwise distinct objects: the new active
sequence holds live layers, as many as the candidates and named as they are. -/
theorem merge_result (s : LayerManager) (cand : List Nat)
    (hlive : ∀ a ∈ s.active ++ cand, s.heap.live a)
    (hdist : (s.active ++ cand).Nodup) :
    ∃ (s2 : LayerManager) (ps : List Nat), s.merge (cand.map some) = .done s2 ∧
      s2 = s.merged cand ∧ s2.mLayerKeepers = ps.map some ∧
      ps.length = cand.length ∧ (∀ p ∈ ps, s2.heap.live p) ∧
      ps.map s2.heap.nameAt = cand.map s.heap.nameAt := by
  have hget : ∀ p ∈ (reconcile s.heap.nameAt s.active cand).1,
      (s.merged cand).heap.get p = s.heap.get p := fun p hp => merged_get_kept hdist hp
  have hnames : (reconcile s.heap.nameAt s.active cand).1.map (s.merged cand).heap.nameAt
      = cand.map s.heap.nameAt := by
    rw [← reconcile_names s.heap.nameAt s.active cand]
    exact List.map_congr_left (fun p hp => nameAt_congr (hget p hp))
  refine ⟨s.merged cand, (reconcile s.heap.nameAt s.active cand).1, merge_eq s cand hlive hdist,
    rfl, rfl, reconcile_length _ _ _, ?_, hnames⟩
  intro p hp
  exact live_congr (hget p hp) (hlive p (kept_mem hp))

/-! ## The loop of _load -/

theorem Store.get_append_left {cells more : List (Option ILayer)} {a : Nat}
    (ha : a < cells.length) : (Store.mk (cells ++ more)).get a = (Store.mk cells).get a := by
  simp [Store.get, List.getElem?_append_left ha]

theorem Store.get_append_right {cells more : List (Option ILayer)} {a : Nat}
    (ha : cells.length ≤ a) :
    (Store.mk (cells ++ more)).get a = (more[a - cells.length]?).join := by
  simp [Store.get, List.getElem?_append_right ha]

theorem assertUnique_eq (s : LayerManager) (name _file : String) (ptrs : List Nat)
    (hl : ∀ p ∈ ptrs, s.heap.live p) :
    assertUnique s name _file (ptrs.map some) =
      if name ∈ ptrs.map s.heap.nameAt then
        .raised ("Layer '" ++ name ++ "' already exist (file : " ++ _file ++ ")") s
      else .done () := by
  induction ptrs with
  | nil => simp [assertUnique]
  | cons p ptrs ih =>
    have ih := ih (fun x hx => hl x (List.mem_cons_of_mem _ hx))
    simp only [List.map_cons, assertUnique, getName_live (hl p (by simp)), Outcome.bind_done, ih,
      List.mem_cons]
    by_cases hn : s.heap.nameAt p = name
    · simp [hn]
    · have hn' : ¬ name = s.heap.nameAt p := fun e => hn e.symm
      simp [hn, hn']

theorem wellFormed_iff (pb : String → Bool) (reg : MapILayerFactory) (v : Version)
    (seen : List String) (es : List xml.Element) :
    wellFormed pb reg v seen es = true ↔
      (∀ n ∈ layerNames es, n ∉ seen) ∧ (layerNames es).Nodup ∧
      ∀ e ∈ es, (e.findAttribute? "name").isSome = true →
        (reg (resolveType pb e v)).isSome = true := by
  induction es generalizing seen with
  | nil => simp [wellFormed, layerNames]
  | cons e es ih =>
    unfold wellFormed
    cases hn : e.findAttribute? "name" with
    | none =>
      have : layerNames (e :: es) = layerNames es := by simp [layerNames, hn]
      rw [this, ih]
      simp [hn]
    | some n =>
      have : layerNames (e :: es) = n :: layerNames es := by simp [layerNames, hn]
      rw [this]
      simp only [Bool.and_eq_true, decide_eq_true_eq, ih, List.mem_append, List.mem_singleton,
        not_or, List.mem_cons, forall_eq_or_imp, List.nodup_cons, hn, Option.isSome_some,
        forall_true_left]
      constructor
      · rintro ⟨h1, h2, h3, h4, h5⟩
        exact ⟨⟨h1, fun m hm => (h3 m hm).1⟩, ⟨fun hm => (h3 n hm).2.1 rfl, h4⟩, h2, h5⟩
      · rintro ⟨⟨h1, h2⟩, ⟨h3, h4⟩, h5, h6⟩
        refine ⟨h1, h5, fun m hm => ⟨h2 m hm, ?_, List.not_mem_nil m⟩, h4, h6⟩
        rintro rfl
        exact h3 hm

theorem live_of_get {h : Store} {a : Nat} {l : ILayer} (e : h.get a = some l) : h.live a := by
  simp [Store.live, e]

theorem nameAt_of_get {h : Store} {a : Nat} {l : ILayer} (e : h.get a = some l) :
    h.nameAt a = l.name := by
  simp [Store.nameAt, e]

/-- The loop of `_load` on well-formed data: one layer object is built for
each named element, at consecutive fresh addresses. -/
theorem loadLoop_done (pb : String → Bool) (_file : String) (v : Version)
    (es : List xml.Element) (ptrs : List Nat) (s : LayerManager)
    (hf : FactoriesNameLayers s.mLayerFactory)
    (hl : ∀ p ∈ ptrs, s.heap.live p)
    (hwf : wellFormed pb s.mLayerFactory v (ptrs.map s.heap.nameAt) es = true) :
    loadLoop pb _file v es (ptrs.map some) s =
      .done ((ptrs ++ List.range' s.heap.cells.length
          (builtLayers pb s.mLayerFactory v es).length).map some,
        { s with heap := ⟨s.heap.cells ++ (builtLayers pb s.mLayerFactory v es).map some⟩ }) := by
  induction es generalizing ptrs s with
  | nil => simp [loadLoop, builtLayers]
  | cons e es ih =>
    unfold wellFormed at hwf
    unfold loadLoop
    cases hn : e.findAttribute? "name" with
    | none =>
      simp only [hn] at hwf ⊢
      rw [ih ptrs s hf hl hwf]
      simp [builtLayers, hn]
    | some n =>
      simp only [hn, Bool.and_eq_true, decide_eq_true_eq] at hwf ⊢
      obtain ⟨h1, h2, h3⟩ := hwf
      obtain ⟨f, hfe⟩ := Option.isSome_iff_exists.1 h2
      have hname : (f.createLayer e v).name = n := hf _ f hfe e v n hn
      rw [assertUnique_eq s n _file ptrs hl]
      simp only [h1, if_false, Outcome.bind_done, hfe, Store.alloc]
      have hold : ∀ a, a < s.heap.cells.length →
          (Store.mk (s.heap.cells ++ [some (f.createLayer e v)])).get a = s.heap.get a :=
        fun a ha => Store.get_append_left ha
      have hnew : (Store.mk (s.heap.cells ++ [some (f.createLayer e v)])).get s.heap.cells.length
          = some (f.createLayer e v) := by
        rw [Store.get_append_right (Nat.le_refl _)]; simp
      have key := ih (ptrs ++ [s.heap.cells.length])
        { s with heap := ⟨s.heap.cells ++ [some (f.createLayer e v)]⟩ } hf ?_ ?_
      · simp only [List.map_append, List.map_cons, List.map_nil] at key
        rw [key]
        simp [builtLayers, hn, hfe, List.range'_succ]
      · intro p hp
        rcases List.mem_append.1 hp with hp | hp
        · exact live_congr (hold p (Store.live_lt (hl p hp))) (hl p hp)
        · rw [List.mem_singleton.1 hp]; exact live_of_get hnew
      · have e1 : (ptrs ++ [s.heap.cells.length]).map
            (Store.mk (s.heap.cells ++ [some (f.createLayer e v)])).nameAt
            = ptrs.map s.heap.nameAt ++ [n] := by
          rw [List.map_append]
          congr 1
          · exact List.map_congr_left
              (fun p hp => nameAt_congr (hold p (Store.live_lt (hl p hp))))
          · simp [nameAt_of_get hnew, hname]
        simp only [e1]
        exact h3

theorem LayerManager.with_heap_self (s : LayerManager) :
    { s with heap := ⟨s.heap.cells ++ ([] : List ILayer).map some⟩ } = s := by
  cases s with
  | mk i k f h => cases h; simp

/-- The loop of `_load` on malformed data: an assertion fails; the members of
the manager are as before and the layers built so far stay in the store. -/
theorem loadLoop_raised (pb : String → Bool) (_file : String) (v : Version)
    (es : List xml.Element) (ptrs : List Nat) (s : LayerManager)
    (hf : FactoriesNameLayers s.mLayerFactory)
    (hl : ∀ p ∈ ptrs, s.heap.live p)
    (hwf : wellFormed pb s.mLayerFactory v (ptrs.map s.heap.nameAt) es = false) :
    ∃ (msg : String) (objs : List ILayer), loadLoop pb _file v es (ptrs.map some) s =
      .raised msg { s with heap := ⟨s.heap.cells ++ objs.map some⟩ } := by
  induction es generalizing ptrs s with
  | nil => simp [wellFormed] at hwf
  | cons e es ih =>
    unfold wellFormed at hwf
    unfold loadLoop
    cases hn : e.findAttribute? "name" with
    | none =>
      simp only [hn] at hwf ⊢
      exact ih ptrs s hf hl hwf
    | some n =>
      simp only [hn] at hwf ⊢
      rw [assertUnique_eq s n _file ptrs hl]
      by_cases h1 : n ∈ ptrs.map s.heap.nameAt
      · refine ⟨"Layer '" ++ n ++ "' already exist (file : " ++ _file ++ ")", [], ?_⟩
        rw [LayerManager.with_heap_self, if_pos h1]; rfl
      · simp only [h1, if_false, Outcome.bind_done]
        cases hfe : s.mLayerFactory (resolveType pb e v) with
        | none => exact ⟨_, [], by rw [LayerManager.with_heap_self]⟩
        | some f =>
          have hname : (f.createLayer e v).name = n := hf _ f hfe e v n hn
          simp only [h1, not_false_eq_true, decide_True, hfe, Option.isSome_some, Bool.true_and]
            at hwf
          simp only [Store.alloc]
          have hold : ∀ a, a < s.heap.cells.length →
              (Store.mk (s.heap.cells ++ [some (f.createLayer e v)])).get a = s.heap.get a :=
            fun a ha => Store.get_append_left ha
          have hnew : (Store.mk (s.heap.cells ++ [some (f.createLayer e v)])).get
              s.heap.cells.length = some (f.createLayer e v) := by
            rw [Store.get_append_right (Nat.le_refl _)]; simp
          have key := ih (ptrs ++ [s.heap.cells.length])
            { s with heap := ⟨s.heap.cells ++ [some (f.createLayer e v)]⟩ } hf ?_ ?_
          · obtain ⟨msg, objs, hk⟩ := key
            simp only [List.map_append, List.map_cons, List.map_nil] at hk
            exact ⟨msg, f.createLayer e v :: objs, by rw [hk]; simp⟩
          · intro p hp
            rcases List.mem_append.1 hp with hp | hp
            · exact live_congr (hold p (Store.live_lt (hl p hp))) (hl p hp)
            · rw [List.mem_singleton.1 hp]; exact live_of_get hnew
          · have e1 : (ptrs ++ [s.heap.cells.length]).map
                (Store.mk (s.heap.cells ++ [some (f.createLayer e v)])).nameAt
                = ptrs.map s.heap.nameAt ++ [n] := by
              rw [List.map_append]
              congr 1
              · exact List.map_congr_left
                  (fun p hp => nameAt_congr (hold p (Store.live_lt (hl p hp))))
              · simp [nameAt_of_get hnew, hname]
            simp only [e1]
            exact hwf

theorem range_names (built : List ILayer) (cells : List (Option ILayer)) :
    (List.range' cells.length built.length).map (Store.mk (cells ++ built.map some)).nameAt
      = built.map (fun l => l.name) ∧
    ∀ p ∈ List.range' cells.length built.length, (Store.mk (cells ++ built.map some)).live p := by
  induction built generalizing cells with
  | nil => simp
  | cons b bs ih =>
    have e : cells ++ (b :: bs).map some = (cells ++ [some b]) ++ bs.map some := by simp
    have hb : (Store.mk ((cells ++ [some b]) ++ bs.map some)).get cells.length = some b := by
      rw [Store.get_append_left (by simp)]
      rw [Store.get_append_right (Nat.le_refl _)]; simp
    have ih := ih (cells ++ [some b])
    simp only [List.length_append, List.length_singleton] at ih
    rw [e]
    simp only [List.length_cons, List.range'_succ, List.map_cons, List.mem_cons]
    refine ⟨?_, ?_⟩
    · rw [ih.1, nameAt_of_get hb]
    · rintro p (rfl | hp)
      · exact live_of_get hb
      · exact ih.2 p hp

theorem builtLayers_names (pb : String → Bool) (reg : MapILayerFactory) (v : Version)
    (es : List xml.Element) (hf : FactoriesNameLayers reg)
    (hreg : ∀ e ∈ es, (e.findAttribute? "name").isSome = true →
      (reg (resolveType pb e v)).isSome = true) :
    (builtLayers pb reg v es).map (fun l => l.name) = layerNames es := by
  induction es with
  | nil => rfl
  | cons e es ih =>
    have ih := ih (fun x hx => hreg x (List.mem_cons_of_mem _ hx))
    cases hn : e.findAttribute? "name" with
    | none => simpa [builtLayers, layerNames, hn] using ih
    | some n =>
      obtain ⟨f, hfe⟩ := Option.isSome_iff_exists.1 (hreg e (by simp) (by simp [hn]))
      have hname : (f.createLayer e v).name = n := hf _ f hfe e v n hn
      simpa [builtLayers, layerNames, hn, hfe, hname] using ih

/-- The state in which `_load` calls `merge` on well-formed data, and the
candidates it passes. -/
theorem load_eq_merge (pb : String → Bool) (s : LayerManager) (_node : xml.Element)
    (_file : String) (v : Version) (hf : FactoriesNameLayers s.mLayerFactory)
    (hwf : wellFormed pb s.mLayerFactory v [] (layerElements _node) = true) :
    s._load pb _node _file v =
      LayerManager.merge
        { s with heap :=
          ⟨s.heap.cells ++ (builtLayers pb s.mLayerFactory v (layerElements _node)).map some⟩ }
        ((List.range' s.heap.cells.length
          (builtLayers pb s.mLayerFactory v (layerElements _node)).length).map some) := by
  unfold LayerManager._load
  have := loadLoop_done pb _file v (layerElements _node) [] s hf (by simp) (by simpa using hwf)
  simp only [List.map_nil] at this
  rw [this]
  simp

theorem load_valid (s : LayerManager) (built : List ILayer)
    (hlive : ∀ a ∈ s.active, s.heap.live a) (hdist : s.active.Nodup) :
    (∀ a ∈ LayerManager.active { s with heap := ⟨s.heap.cells ++ built.map some⟩ } ++
        List.range' s.heap.cells.length built.length,
      (Store.mk (s.heap.cells ++ built.map some)).live a) ∧
    (LayerManager.active { s with heap := ⟨s.heap.cells ++ built.map some⟩ } ++
        List.range' s.heap.cells.length built.length).Nodup := by
  have hact : LayerManager.active { s with heap := ⟨s.heap.cells ++ built.map some⟩ } = s.active :=
    rfl
  rw [hact]
  refine ⟨?_, ?_⟩
  · intro a ha
    rcases List.mem_append.1 ha with ha | ha
    · exact live_congr (Store.get_append_left (Store.live_lt (hlive a ha))) (hlive a ha)
    · exact (range_names built s.heap.cells).2 a ha
  · refine List.nodup_append.2 ⟨hdist, List.nodup_range' _ _, ?_⟩
    intro a ha hb
    have h1 := Store.live_lt (hlive a ha)
    have h2 := (List.mem_range'_1.1 hb).1
    omega

/-! ## merge never raises -/

theorem Outcome.notRaised_bind {α β : Type} {o : Outcome α} {f : α → Outcome β}
    (h1 : o.NotRaised) (h2 : ∀ a, (f a).NotRaised) : (o.bind f).NotRaised := by
  cases o with
  | done a => exact h2 a
  | raised m s => exact absurd rfl (h1 m s)
  | fault => intro m s h; cases h

theorem Outcome.notRaised_done {α : Type} (a : α) : (Outcome.done a).NotRaised := by
  intro m s h; cases h

theorem getName_notRaised (h : Store) (p : ILayerPtr) : (getName h p).NotRaised := by
  intro m s
  cases p with
  | none => simp [getName]
  | some a => cases hg : h.get a <;> simp [getName, hg]

theorem delete_notRaised (h : Store) (a : Nat) : (delete h a).NotRaised := by
  intro m s
  cases hg : h.get a <;> simp [delete, hg]

theorem destroy_notRaised (h : Store) (p : ILayerPtr) : (destroy h p).NotRaised := by
  cases p with
  | none => intro m s hh; cases hh
  | some a =>
    exact Outcome.notRaised_bind (getName_notRaised _ _) (fun _ => delete_notRaised _ _)

theorem mergeFind_notRaised (name : String) (old : Nat) (layers : VectorLayer) (h : Store) :
    (mergeFind name old layers h).NotRaised := by
  induction layers with
  | nil => exact Outcome.notRaised_done _
  | cons p rest ih =>
    cases p with
    | none => intro m s hh; cases hh
    | some c =>
      unfold mergeFind
      refine Outcome.notRaised_bind (getName_notRaised _ _) (fun n => ?_)
      split_ifs
      · exact Outcome.notRaised_bind (delete_notRaised _ _) (fun _ => Outcome.notRaised_done _)
      · exact Outcome.notRaised_bind ih (fun _ => Outcome.notRaised_done _)

theorem mergeLoop_notRaised (keepers layers : VectorLayer) (h : Store) :
    (mergeLoop keepers layers h).NotRaised := by
  induction keepers generalizing layers h with
  | nil => exact Outcome.notRaised_done _
  | cons p rest ih =>
    cases p with
    | none =>
      unfold mergeLoop
      exact Outcome.notRaised_bind (ih _ _) (fun _ => Outcome.notRaised_done _)
    | some a =>
      unfold mergeLoop
      refine Outcome.notRaised_bind (getName_notRaised _ _) (fun n => ?_)
      refine Outcome.notRaised_bind (mergeFind_notRaised _ _ _ _) (fun r => ?_)
      refine Outcome.notRaised_bind ?_ (fun h1 => ?_)
      · split_ifs
        · exact Outcome.notRaised_done _
        · exact destroy_notRaised _ _
      · exact Outcome.notRaised_bind (ih _ _) (fun _ => Outcome.notRaised_done _)

/-- No assertion in `merge`: it never raises. -/
theorem merge_notRaised (s : LayerManager) (layers : VectorLayer) :
    (s.merge layers).NotRaised :=
  Outcome.notRaised_bind (mergeLoop_notRaised _ _ _) (fun _ => Outcome.notRaised_done _)

/-! ## Detaching and attaching -/

theorem Store.get_detach (h : Store) (w a : Nat) :
    (h.detachFromLayer w).get a = (h.get a).map fun l => l.detachLayerItem w := by
  unfold Store.detachFromLayer Store.get
  simp only [List.getElem?_map]
  cases h.cells[a]? with
  | none => rfl
  | some c => cases c <;> rfl

theorem Store.live_detach {h : Store} {w a : Nat} (hl : h.live a) :
    (h.detachFromLayer w).live a := by
  obtain ⟨l, hg⟩ := Store.live_iff.1 hl
  simp [Store.live, Store.get_detach, hg]

theorem Store.nameAt_detach (h : Store) (w a : Nat) :
    (h.detachFromLayer w).nameAt a = h.nameAt a := by
  unfold Store.nameAt
  rw [Store.get_detach]
  cases h.get a <;> rfl

theorem Store.get_put {h : Store} {a : Nat} (l : ILayer) (hl : h.live a) (b : Nat) :
    (h.put a l).get b = if a = b then some l else h.get b := by
  have hlt := Store.live_lt hl
  unfold Store.put Store.get
  simp only [List.getElem?_set]
  by_cases hab : a = b
  · subst hab; simp [hlt]
  · simp [hab]

theorem ILayer.attach_eq (l : ILayer) (w : Nat) :
    l.createItemNode.2.attachLayerItem l.createItemNode.1 w
      = { l with nodes := l.nodes ++ [⟨some w⟩] } := by
  simp [ILayer.createItemNode, ILayer.attachLayerItem]

theorem attachLoop_eq (name : String) (w : Nat) (h : Store) (ps : List Nat)
    (hl : ∀ p ∈ ps, h.live p) :
    attachLoop name w (ps.map some) h =
      match ps.find? (fun p => decide (h.nameAt p = name)) with
      | none => .done h
      | some a =>
        match h.get a with
        | none => .fault
        | some l => .done (h.put a { l with nodes := l.nodes ++ [⟨some w⟩] }) := by
  induction ps with
  | nil => rfl
  | cons p ps ih =>
    have ih := ih (fun a ha => hl a (List.mem_cons_of_mem _ ha))
    obtain ⟨l, hp⟩ := Store.live_iff.1 (hl p (by simp))
    simp only [List.map_cons, attachLoop, hp, List.find?_cons, nameAt_of_get hp]
    by_cases hn : name = l.name
    · simp [hn, hp, ILayer.attach_eq]
    · have hn' : ¬ l.name = name := fun e => hn e.symm
      simp [hn, hn', ih]

/-! ## The claims on merge -/

/-- C1. merge preserves identity: when the names are unique among the active
layers and among the candidates (all of them live, pairwise distinct objects),
merge returns, and for every active layer `old` whose name is that of the
candidate `c` at position `i`, position `i` of the new active sequence holds
the address `old`, the object at `old` is untouched (name, type, nodes and the
widgets attached to them) and `c` has been deleted; every position whose
candidate bears the name of no active layer still holds that candidate,
untouched. -/
theorem merge_identity (s : LayerManager) (cand : List Nat)
    (hlive : ∀ a ∈ s.active ++ cand, s.heap.live a)
    (hdist : (s.active ++ cand).Nodup)
    (huA : (s.active.map s.heap.nameAt).Nodup)
    (huC : (cand.map s.heap.nameAt).Nodup) :
    ∃ s2 : LayerManager, s.merge (cand.map some) = .done s2 ∧
      (∀ i c old : Nat, cand[i]? = some c → old ∈ s.active →
        s.heap.nameAt old = s.heap.nameAt c →
          s2.mLayerKeepers[i]? = some (some old) ∧ s2.heap.get old = s.heap.get old ∧
          s2.heap.live old ∧ s2.heap.get c = none) ∧
      (∀ i c : Nat, cand[i]? = some c →
        (∀ old ∈ s.active, s.heap.nameAt old ≠ s.heap.nameAt c) →
          s2.mLayerKeepers[i]? = some (some c) ∧ s2.heap.get c = s.heap.get c ∧
          s2.heap.live c) := by
  refine ⟨s.merged cand, merge_eq s cand hlive hdist, ?_, ?_⟩
  · intro i c old hc hold hn
    have ho : old ∈ s.active := hold
    obtain ⟨h1, h2⟩ := reconcile_reuse s.heap.nameAt s.active cand i old c huA ho hc hn
      (fun k x hk hx => nodup_first s.heap.nameAt huC hc hx hk)
    have hk : old ∈ (reconcile s.heap.nameAt s.active cand).1 := List.getElem?_mem h1
    have hg := merged_get_kept hdist hk
    refine ⟨?_, hg, live_congr hg (hlive old (List.mem_append_left _ ho)), merged_get_freed h2⟩
    simp [LayerManager.merged, h1]
  · intro i c hc hnone
    have h1 := reconcile_new s.heap.nameAt s.active cand i c hc
      hnone
    have hk : c ∈ (reconcile s.heap.nameAt s.active cand).1 := List.getElem?_mem h1
    have hg := merged_get_kept hdist hk
    refine ⟨?_, hg, live_congr hg (hlive c (List.mem_append_right _ (List.getElem?_mem hc)))⟩
    simp [LayerManager.merged, h1]

/-- C2. merge adopts the order of the candidates: on live, pairwise distinct
objects merge returns, the new active sequence has the length of the candidate
sequence, its entries are non-null live layers, and the name at each position is
the name of the candidate that was at that position, whatever the previous
active sequence was. -/
theorem merge_order (s : LayerManager) (cand : List Nat)
    (hlive : ∀ a ∈ s.active ++ cand, s.heap.live a)
    (hdist : (s.active ++ cand).Nodup) :
    ∃ (s2 : LayerManager) (ps : List Nat), s.merge (cand.map some) = .done s2 ∧
      s2.mLayerKeepers = ps.map some ∧
      ps.length = cand.length ∧ (∀ p ∈ ps, s2.heap.live p) ∧
      ps.map s2.heap.nameAt = cand.map s.heap.nameAt ∧
      ∀ i c : Nat, cand[i]? = some c →
        ∃ p : Nat, s2.mLayerKeepers[i]? = some (some p) ∧
          s2.heap.nameAt p = s.heap.nameAt c := by
  obtain ⟨s2, ps, hm, -, hk, hlen, hl, hnames⟩ := merge_result s cand hlive hdist
  refine ⟨s2, ps, hm, hk, hlen, hl, hnames, ?_⟩
  intro i c hc
  have hi : i < ps.length := by rw [hlen]; exact (List.getElem?_eq_some.1 hc).1
  refine ⟨ps[i], ?_, ?_⟩
  · simp [hk, List.getElem?_eq_getElem hi]
  · have h1 := congrArg (fun l => l[i]?) hnames
    simp only [List.getElem?_map, hc, List.getElem?_eq_getElem hi, Option.map_some'] at h1
    injection h1

/-- C3. merge destroys stale layers: on live, pairwise distinct objects merge
returns, and every active layer whose name no candidate bears has been deleted,
is absent from the new active sequence, and `isExist` of its name returns
false afterwards. -/
theorem merge_stale (s : LayerManager) (cand : List Nat)
    (hlive : ∀ a ∈ s.active ++ cand, s.heap.live a)
    (hdist : (s.active ++ cand).Nodup) :
    ∃ s2 : LayerManager, s.merge (cand.map some) = .done s2 ∧
      ∀ a ∈ s.active, (∀ c ∈ cand, s.heap.nameAt c ≠ s.heap.nameAt a) →
        s.heap.live a ∧ s2.heap.get a = none ∧ some a ∉ s2.mLayerKeepers ∧
        s2.isExist (s.heap.nameAt a) = .done false := by
  obtain ⟨s2, ps, hm, hs2, hk, -, hl, hn⟩ := merge_result s cand hlive hdist
  refine ⟨s2, hm, ?_⟩
  intro a ha hs
  have hfreed := reconcile_stale s.heap.nameAt s.active cand a ha hs
  have hgone : s2.heap.get a = none := by rw [hs2]; exact merged_get_freed hfreed
  refine ⟨hlive a (List.mem_append_left _ ha), hgone, ?_, ?_⟩
  · rw [hk]
    intro hmem
    obtain ⟨p, hp, e⟩ := List.mem_map.1 hmem
    injection e with e
    have := hl p hp
    rw [e] at this
    simp [Store.live, hgone] at this
  · unfold LayerManager.isExist
    rw [hk, isExistLoop_eq s2.heap _ ps hl, hn]
    have : s.heap.nameAt a ∉ cand.map s.heap.nameAt := by
      intro hmem
      obtain ⟨c, hc, e⟩ := List.mem_map.1 hmem
      exact hs c hc e
    simp only [this, decide_False]

/-- Witness of C1 on `sampleManager`: the old `A` (address 0) takes the place of
the candidate `A` (address 3), which is deleted; the candidate `C` stays. -/
theorem merge_identity_witness :
    ∃ s2 : LayerManager, sampleManager.merge ([2, 3].map some) = .done s2 ∧
      s2.mLayerKeepers[1]? = some (some 0) ∧ s2.heap.get 0 = sampleManager.heap.get 0 ∧
      s2.heap.get 3 = none ∧ s2.mLayerKeepers[0]? = some (some 2) ∧
      s2.heap.get 2 = sampleManager.heap.get 2 := by
  obtain ⟨s2, hm, h1, h2⟩ := merge_identity sampleManager [2, 3]
    (by decide) (by decide) (by decide) (by decide)
  obtain ⟨a1, a2, -, a3⟩ := h1 1 3 0 (by decide) (by decide) (by decide)
  obtain ⟨b1, b2, -⟩ := h2 0 2 (by decide) (by decide)
  exact ⟨s2, hm, a1, a2, a3, b1, b2⟩

/-- Witness of C2 on `sampleManager`: the names after merge are those of the
candidates, in their order. -/
theorem merge_order_witness :
    ∃ (s2 : LayerManager) (ps : List Nat), sampleManager.merge ([2, 3].map some) = .done s2 ∧
      s2.mLayerKeepers = ps.map some ∧ ps.length = 2 ∧
      ps.map s2.heap.nameAt = ["C", "A"] := by
  obtain ⟨s2, ps, hm, h1, h2, -, h3, -⟩ := merge_order sampleManager [2, 3]
    (by decide) (by decide)
  exact ⟨s2, ps, hm, h1, h2, h3⟩

/-- Witness of C3 on `sampleManager`: the old `B` (address 1) is deleted. -/
theorem merge_stale_witness :
    ∃ s2 : LayerManager, sampleManager.merge ([2, 3].map some) = .done s2 ∧
      s2.heap.get 1 = none ∧ some 1 ∉ s2.mLayerKeepers ∧ s2.isExist "B" = .done false := by
  obtain ⟨s2, hm, h⟩ := merge_stale sampleManager [2, 3] (by decide) (by decide)
  obtain ⟨-, h1, h2, h3⟩ := h 1 (by decide) (by decide)
  exact ⟨s2, hm, h1, h2, h3⟩

/-! ## The claims on _load -/

/-- C4. `_load` of a well-formed description: when every `Layer` element
carries a name, the names are pairwise distinct and every resolved type is
registered (the factories naming their layer by the `name` attribute), `_load`
returns on a manager whose active layers are live and distinct; the new active
sequence holds one live layer per element, distinct objects, named as the
elements in description order, and `isExist n` is then true exactly for the
names `n` of the description. -/
theorem load_wellFormed (pb : String → Bool) (s : LayerManager) (_node : xml.Element)
    (_file : String) (v : Version)
    (hf : FactoriesNameLayers s.mLayerFactory)
    (hlive : ∀ a ∈ s.active, s.heap.live a) (hdist : s.active.Nodup)
    (hnamed : ∀ e ∈ layerElements _node, (e.findAttribute? "name").isSome = true)
    (huniq : (layerNames (layerElements _node)).Nodup)
    (hreg : ∀ e ∈ layerElements _node,
      (s.mLayerFactory (resolveType pb e v)).isSome = true) :
    ∃ (s2 : LayerManager) (ps : List Nat), s._load pb _node _file v = .done s2 ∧
      s2.mLayerKeepers = ps.map some ∧ ps.Nodup ∧ (∀ p ∈ ps, s2.heap.live p) ∧
      ps.length = (layerElements _node).length ∧
      ps.map s2.heap.nameAt = (layerElements _node).map (fun e => e.findAttribute "name") ∧
      ∀ n, s2.isExist n = .done (decide (n ∈ layerNames (layerElements _node))) := by
  have hwf : wellFormed pb s.mLayerFactory v [] (layerElements _node) = true :=
    (wellFormed_iff pb s.mLayerFactory v [] _).2
      ⟨fun n _ => List.not_mem_nil n, huniq, fun e he _ => hreg e he⟩
  obtain ⟨hl1, hd1⟩ := load_valid s (builtLayers pb s.mLayerFactory v (layerElements _node))
    hlive hdist
  obtain ⟨s2, ps, hm, -, hk, hlen, hl, hn⟩ := merge_result _ _ hl1 hd1
  have hnames : ps.map s2.heap.nameAt = layerNames (layerElements _node) := by
    rw [hn]
    exact ((range_names _ _).1).trans
      (builtLayers_names pb s.mLayerFactory v _ hf (fun e he _ => hreg e he))
  have hall : layerNames (layerElements _node)
      = (layerElements _node).map (fun e => e.findAttribute "name") := by
    generalize layerElements _node = es at hnamed
    induction es with
    | nil => rfl
    | cons e es ih =>
      obtain ⟨n, hn⟩ := Option.isSome_iff_exists.1 (hnamed e (by simp))
      have ih := ih (fun x hx => hnamed x (List.mem_cons_of_mem _ hx))
      simp only [layerNames, List.filterMap_cons, hn, List.map_cons,
        xml.Element.findAttribute, Option.getD_some] at ih ⊢
      rw [ih]
  refine ⟨s2, ps, (load_eq_merge pb s _node _file v hf hwf).trans hm, hk, ?_, hl, ?_, ?_, ?_⟩
  · have : (ps.map s2.heap.nameAt).Nodup := hnames ▸ huniq
    exact List.Nodup.of_map _ this
  · have := congrArg List.length (hnames.trans hall)
    simpa using this
  · rw [hnames, hall]
  · intro n
    unfold LayerManager.isExist
    rw [hk, isExistLoop_eq s2.heap n ps hl, hnames]

theorem builtinFactories_name : FactoriesNameLayers builtinFactories := by
  intro t f ht e v n hn
  unfold builtinFactories at ht
  split_ifs at ht <;> injection ht with ht <;> subst ht <;>
    simp [SimpleLayerFactory, OverlappedLayerFactory, xml.Element.findAttribute, hn]

/-- Witness of C4: the description of `A` (simple) and `B` (overlapped) loaded
into the empty manager gives exactly the two layers `A`, `B`. -/
theorem load_wellFormed_witness :
    ∃ (s2 : LayerManager) (ps : List Nat),
      emptyManager._load sampleParseBool sampleDescription "layers.xml" ⟨1, 1⟩ = .done s2 ∧
      s2.mLayerKeepers = ps.map some ∧ ps.length = 2 ∧ ps.map s2.heap.nameAt = ["A", "B"] ∧
      s2.isExist "A" = .done true ∧ s2.isExist "B" = .done true ∧
      s2.isExist "C" = .done false := by
  obtain ⟨s2, ps, h1, h2, -, -, h3, h4, h5⟩ :=
    load_wellFormed sampleParseBool emptyManager sampleDescription "layers.xml" ⟨1, 1⟩
      builtinFactories_name (by decide) (by decide) (by decide) (by decide) (by decide)
  exact ⟨s2, ps, h1, h2, h3, h4, h5 "A", h5 "B", h5 "C"⟩

theorem loadLoop_filter (pb : String → Bool) (_file : String) (v : Version)
    (es : List xml.Element) (layers : VectorLayer) (s : LayerManager) :
    loadLoop pb _file v (es.filter fun e => (e.findAttribute? "name").isSome) layers s
      = loadLoop pb _file v es layers s := by
  induction es generalizing layers s with
  | nil => rfl
  | cons e es ih =>
    cases hn : e.findAttribute? "name" with
    | none =>
      rw [List.filter_cons_of_neg (by simp [hn])]
      conv_rhs => unfold loadLoop
      simp only [hn]
      exact ih layers s
    | some n =>
      rw [List.filter_cons_of_pos (by simp [hn])]
      unfold loadLoop
      simp only [hn]
      congr 1
      funext _
      cases s.mLayerFactory (resolveType pb e v) with
      | none => rfl
      | some f => exact ih _ _

theorem layerElements_dropNameless (_node : xml.Element) :
    layerElements (dropNameless _node)
      = (layerElements _node).filter fun e => (e.findAttribute? "name").isSome := by
  cases _node with
  | mk n a c =>
    simp only [layerElements, dropNameless, xml.Element.children, List.filter_filter]
    congr 1
    funext e
    exact Bool.and_comm _ _

/-- C5. `_load` skips nameless elements: for every manager state, version and
description, `_load` ends exactly as `_load` of the description without the
elements that lack the `name` attribute: the same outcome, and on return the
same manager state. -/
theorem load_skips_nameless (pb : String → Bool) (s : LayerManager) (_node : xml.Element)
    (_file : String) (v : Version) :
    s._load pb (dropNameless _node) _file v = s._load pb _node _file v := by
  unfold LayerManager._load
  rw [layerElements_dropNameless, loadLoop_filter]

/-- C6. `_load` fails exactly on malformed data: with factories that name
their layer by the `name` attribute, `_load` ends in a failed assertion if and
only if two of the `Layer` elements that carry a name share it, or the resolved
type of one of them is not a key of the factory registry. -/
theorem load_raises_iff (pb : String → Bool) (s : LayerManager) (_node : xml.Element)
    (_file : String) (v : Version) (hf : FactoriesNameLayers s.mLayerFactory) :
    (∃ msg s2, s._load pb _node _file v = .raised msg s2) ↔
      (¬ (layerNames (layerElements _node)).Nodup ∨
        ∃ e ∈ layerElements _node, (e.findAttribute? "name").isSome = true ∧
          s.mLayerFactory (resolveType pb e v) = none) := by
  have hiff := wellFormed_iff pb s.mLayerFactory v [] (layerElements _node)
  cases hwf : wellFormed pb s.mLayerFactory v [] (layerElements _node) with
  | true =>
    obtain ⟨-, h2, h3⟩ := hiff.1 hwf
    constructor
    · rintro ⟨msg, s2, hr⟩
      rw [load_eq_merge pb s _node _file v hf hwf] at hr
      exact absurd hr (merge_notRaised _ _ msg s2)
    · rintro (h | ⟨e, he, hn, hnone⟩)
      · exact absurd h2 h
      · have := h3 e he hn
        rw [hnone] at this
        cases this
  | false =>
    constructor
    · intro _
      by_contra hc
      rw [not_or, not_not] at hc
      have : wellFormed pb s.mLayerFactory v [] (layerElements _node) = true := by
        refine hiff.2 ⟨fun n _ => List.not_mem_nil n, hc.1, fun e he hn => ?_⟩
        cases hreg : s.mLayerFactory (resolveType pb e v) with
        | none => exact absurd ⟨e, he, hn, hreg⟩ hc.2
        | some f => rfl
      rw [hwf] at this
      cases this
    · intro _
      obtain ⟨msg, objs, hr⟩ := loadLoop_raised pb _file v (layerElements _node) [] s hf
        (by simp) (by simpa using hwf)
      refine ⟨msg, { s with heap := ⟨s.heap.cells ++ objs.map some⟩ }, ?_⟩
      unfold LayerManager._load
      simp only [List.map_nil] at hr
      rw [hr]
      rfl

/-- Witness of C6: a description with two layers named `A` fails, and so
does one with a layer of the unregistered type `Fancy`. -/
theorem load_raises_iff_witness :
    (∃ msg s2, sampleManager._load sampleParseBool
        (.mk "MyGUI" [] [layerElement [("name", "A"), ("type", "SimpleLayer")],
          layerElement [("name", "A"), ("type", "OverlappedLayer")]]) "layers.xml" ⟨1, 1⟩
        = .raised msg s2) ∧
    (∃ msg s2, sampleManager._load sampleParseBool
        (.mk "MyGUI" [] [layerElement [("name", "A"), ("type", "Fancy")]]) "layers.xml" ⟨1, 1⟩
        = .raised msg s2) :=
  ⟨(load_raises_iff sampleParseBool sampleManager _ "layers.xml" ⟨1, 1⟩
      builtinFactories_name).2 (Or.inl (by decide)),
   (load_raises_iff sampleParseBool sampleManager _ "layers.xml" ⟨1, 1⟩
      builtinFactories_name).2 (Or.inr ⟨layerElement [("name", "A"), ("type", "Fancy")],
        by simp [layerElements, xml.Element.children, layerElement, xml.Element.getName, XML_TYPE],
        by decide, by rfl⟩)⟩

theorem resolveType_modern (pb : String → Bool) (e : xml.Element) (v : Version)
    (hv : v.le ⟨1, 0⟩ = false) : resolveType pb e v = e.findAttribute "type" := by
  simp [resolveType, hv]

theorem loadLoop_overlapped (pb : String → Bool) (_file : String) (v : Version)
    (hv : v.le ⟨1, 0⟩ = false) (es es2 : List xml.Element)
    (hsame : List.Forall₂ SameButOverlapped es es2) (layers : VectorLayer) (s : LayerManager)
    (hf : FactoriesIgnoreOverlapped s.mLayerFactory v) :
    loadLoop pb _file v es layers s = loadLoop pb _file v es2 layers s := by
  induction hsame generalizing layers s with
  | nil => rfl
  | @cons e e2 es es2 h _ ih =>
    have hname : e.findAttribute? "name" = e2.findAttribute? "name" := h.2 "name" (by decide)
    have htype : resolveType pb e v = resolveType pb e2 v := by
      rw [resolveType_modern pb e v hv, resolveType_modern pb e2 v hv]
      simp [xml.Element.findAttribute, h.2 "type" (by decide)]
    unfold loadLoop
    rw [← hname, ← htype]
    cases e.findAttribute? "name" with
    | none => exact ih layers s hf
    | some n =>
      simp only
      congr 1
      funext _
      cases hfe : s.mLayerFactory (resolveType pb e v) with
      | none => rfl
      | some f =>
        simp only
        rw [← hf _ f hfe e e2 h]
        exact ih _ _ hf

theorem forall₂_filter_same {es es2 : List xml.Element}
    (hsame : List.Forall₂ SameButOverlapped es es2) :
    List.Forall₂ SameButOverlapped
      (es.filter fun e => decide (e.getName = XML_TYPE))
      (es2.filter fun e => decide (e.getName = XML_TYPE)) := by
  induction hsame with
  | nil => exact List.Forall₂.nil
  | @cons e e2 es es2 h _ ih =>
    by_cases ht : e.getName = XML_TYPE
    · have ht2 : e2.getName = XML_TYPE := h.1 ▸ ht
      rw [List.filter_cons_of_pos (by simpa using ht), List.filter_cons_of_pos (by simpa using ht2)]
      exact List.Forall₂.cons h ih
    · have ht2 : ¬ e2.getName = XML_TYPE := h.1 ▸ ht
      rw [List.filter_cons_of_neg (by simpa using ht), List.filter_cons_of_neg (by simpa using ht2)]
      exact ih

/-- C7. Type resolution of `_load`: the factory key of a layer element is its
`type` attribute when that is present and non-empty; otherwise, for a version
≤ 1.0, it is `OverlappedLayer` when the `overlapped` attribute parses to true
and `SimpleLayer` in every other case; that key is the one `_load` looks up in
the registry (a description of one named layer fails with the key in the
message when it is not registered, and is built by the factory registered under
it otherwise); and for a version > 1.0 the key does not depend on `overlapped`,
and two descriptions that differ only in `overlapped` attributes are loaded with
the same outcome (no registered factory reading that attribute). -/
theorem load_type_resolution (pb : String → Bool) (s : LayerManager) (_node _node2 : xml.Element)
    (_file : String) (v : Version)
    (hsame : List.Forall₂ SameButOverlapped _node.children _node2.children)
    (hf : FactoriesIgnoreOverlapped s.mLayerFactory v) :
    (∀ e : xml.Element, e.findAttribute "type" ≠ "" →
      resolveType pb e v = e.findAttribute "type") ∧
    (∀ e : xml.Element, e.findAttribute "type" = "" → v.le ⟨1, 0⟩ = true →
      resolveType pb e v =
        if pb (e.findAttribute "overlapped") = true then "OverlappedLayer" else "SimpleLayer") ∧
    (∀ (tag : String) (attrs : List (String × String)) (e : xml.Element),
      e.getName = XML_TYPE → (e.findAttribute? "name").isSome = true →
      s._load pb (.mk tag attrs [e]) _file v =
        match s.mLayerFactory (resolveType pb e v) with
        | none => .raised ("factory is '" ++ resolveType pb e v ++ "' not found") s
        | some f =>
          LayerManager.merge { s with heap := (s.heap.alloc (f.createLayer e v)).2 }
            [some (s.heap.alloc (f.createLayer e v)).1]) ∧
    (v.le ⟨1, 0⟩ = false →
      (∀ e e2 : xml.Element, SameButOverlapped e e2 → resolveType pb e v = resolveType pb e2 v) ∧
      s._load pb _node _file v = s._load pb _node2 _file v) := by
  refine ⟨?_, ?_, ?_, ?_⟩
  · intro e he
    simp [resolveType, he]
  · intro e he hv
    simp [resolveType, he, hv]
  · intro tag attrs e ht hn
    obtain ⟨n, hn⟩ := Option.isSome_iff_exists.1 hn
    have hle : layerElements (.mk tag attrs [e]) = [e] := by
      simp [layerElements, xml.Element.children, ht]
    unfold LayerManager._load
    rw [hle]
    simp only [loadLoop, hn, assertUnique, Outcome.bind_done]
    cases s.mLayerFactory (resolveType pb e v) with
    | none => rfl
    | some f => rfl
  · intro hv
    refine ⟨?_, ?_⟩
    · intro e e2 h
      rw [resolveType_modern pb e v hv, resolveType_modern pb e2 v hv]
      simp [xml.Element.findAttribute, h.2 "type" (by decide)]
    · unfold LayerManager._load layerElements
      rw [loadLoop_overlapped pb _file v hv _ _ (forall₂_filter_same hsame) [] s hf]


theorem builtinFactories_ignore (v : Version) : FactoriesIgnoreOverlapped builtinFactories v := by
  intro t f ht e e2 h
  have hn : e.findAttribute "name" = e2.findAttribute "name" := by
    simp [xml.Element.findAttribute, h.2 "name" (by decide)]
  unfold builtinFactories at ht
  split_ifs at ht <;> injection ht with ht <;> subst ht <;>
    simp [SimpleLayerFactory, OverlappedLayerFactory, hn]

/-- Witness of C7: at version 1.1 the layer `A` without a `type` is looked up
under the empty key whatever `overlapped` says, and the load ends the same. -/
theorem load_type_resolution_witness :
    resolveType sampleParseBool (layerElement [("overlapped", "true"), ("name", "A")]) ⟨1, 0⟩
      = "OverlappedLayer" ∧
    resolveType sampleParseBool (layerElement [("overlapped", "true"), ("name", "A")]) ⟨1, 1⟩
      = "" ∧
    sampleManager._load sampleParseBool
        (.mk "MyGUI" [] [layerElement [("overlapped", "true"), ("name", "A")]]) "layers.xml" ⟨1, 1⟩
      = sampleManager._load sampleParseBool
        (.mk "MyGUI" [] [layerElement [("overlapped", "false"), ("name", "A")]]) "layers.xml"
        ⟨1, 1⟩ := by
  have hsame : SameButOverlapped (layerElement [("overlapped", "true"), ("name", "A")])
      (layerElement [("overlapped", "false"), ("name", "A")]) := by
    refine ⟨rfl, fun k hk => ?_⟩
    have hb : (k == "overlapped") = false := by simpa using hk
    simp only [xml.Element.findAttribute?, xml.Element.attributes, layerElement, List.lookup, hb]
  have h10 := (load_type_resolution sampleParseBool sampleManager
    (.mk "MyGUI" [] [layerElement [("overlapped", "true"), ("name", "A")]])
    (.mk "MyGUI" [] [layerElement [("overlapped", "false"), ("name", "A")]]) "layers.xml" ⟨1, 0⟩
    (List.Forall₂.cons hsame List.Forall₂.nil) (builtinFactories_ignore _)).2.1
      (layerElement [("overlapped", "true"), ("name", "A")]) (by decide) (by decide)
  have h11 := (load_type_resolution sampleParseBool sampleManager
    (.mk "MyGUI" [] [layerElement [("overlapped", "true"), ("name", "A")]])
    (.mk "MyGUI" [] [layerElement [("overlapped", "false"), ("name", "A")]]) "layers.xml" ⟨1, 1⟩
    (List.Forall₂.cons hsame List.Forall₂.nil) (builtinFactories_ignore _)).2.2.2 (by decide)
  exact ⟨h10, by decide, h11.2⟩

/-! ## The claims on hit test and attachment -/

theorem hitLoop_eq (pick : ILayer → Int → Int → Option Nat) (h : Store) (x y : Int)
    (ps : List Nat) (hl : ∀ p ∈ ps, h.live p) :
    hitLoop pick h x y (ps.map some) =
      .done (ps.filterMap fun p => (h.get p).bind fun l => pick l x y).head? := by
  induction ps with
  | nil => rfl
  | cons p ps ih =>
    have ih := ih (fun a ha => hl a (List.mem_cons_of_mem _ ha))
    obtain ⟨l, hp⟩ := Store.live_iff.1 (hl p (by simp))
    simp only [List.map_cons, hitLoop, hp, List.filterMap_cons, Option.some_bind]
    cases hpick : pick l x y with
    | none => simpa using ih
    | some i => simp

theorem getLast?_filterMap_last {f : Nat → Option Nat} {l : List Nat} {i w item : Nat}
    (hi : l[i]? = some w) (hf : f w = some item)
    (hlater : ∀ j w2, i < j → l[j]? = some w2 → f w2 = none) :
    (l.filterMap f).getLast? = some item := by
  have hsplit : l = l.take i ++ w :: l.drop (i + 1) := by
    obtain ⟨hlt, hw⟩ := List.getElem?_eq_some.1 hi
    rw [← hw, List.getElem_cons_drop l i hlt, List.take_append_drop]
  have hpost : (l.drop (i + 1)).filterMap f = [] := by
    rw [List.filterMap_eq_nil_iff]
    intro a ha
    obtain ⟨k, hk⟩ := List.mem_iff_getElem?.1 ha
    rw [List.getElem?_drop] at hk
    exact hlater _ a (by omega) hk
  rw [hsplit, List.filterMap_append, List.filterMap_cons, hf, hpost]
  simp

/-- C8. `getWidgetFromPoint` is topmost-first: on a manager whose active
entries are non-null live layers the call returns the item reported by the last
layer, in sequence order, whose `getLayerItemByPoint` is non-null; it returns
null if and only if every active layer reports null. -/
theorem hitTest_topmost (pick : ILayer → Int → Int → Option Nat) (s : LayerManager)
    (x y : Int) (hnn : s.mLayerKeepers = s.active.map some)
    (hlive : ∀ a ∈ s.active, s.heap.live a) :
    s.getWidgetFromPoint pick x y = .done (s.reports pick x y).getLast? ∧
    (∀ i w : Nat, s.active[i]? = some w →
      (∃ l item, s.heap.get w = some l ∧ pick l x y = some item ∧
        ∀ j w2 l2, i < j → s.active[j]? = some w2 → s.heap.get w2 = some l2 →
          pick l2 x y = none) →
      ∃ l, s.heap.get w = some l ∧ s.getWidgetFromPoint pick x y = .done (pick l x y)) ∧
    (s.getWidgetFromPoint pick x y = .done none ↔
      ∀ a ∈ s.active, ∀ l, s.heap.get a = some l → pick l x y = none) := by
  have hres : s.getWidgetFromPoint pick x y = .done (s.reports pick x y).getLast? := by
    unfold LayerManager.getWidgetFromPoint LayerManager.reports
    rw [hnn, ← List.map_reverse, hitLoop_eq pick s.heap x y _
      (fun p hp => hlive p (List.mem_reverse.1 hp)), List.filterMap_reverse, List.head?_reverse]
  refine ⟨hres, ?_, ?_⟩
  · rintro i w hi ⟨l, item, hg, hp, hlater⟩
    refine ⟨l, hg, ?_⟩
    rw [hres, hp]
    congr 1
    refine getLast?_filterMap_last hi (by simp [hg, hp]) ?_
    intro j w2 hj hw2
    obtain ⟨l2, hg2⟩ := Store.live_iff.1 (hlive w2 (List.getElem?_mem hw2))
    simp [hg2, hlater j w2 l2 hj hw2 hg2]
  · rw [hres]
    simp only [Outcome.done.injEq, List.getLast?_eq_none_iff, LayerManager.reports,
      List.filterMap_eq_nil_iff]
    constructor
    · intro h a ha l hg
      simpa [hg] using h a ha
    · intro h a ha
      obtain ⟨l, hg⟩ := Store.live_iff.1 (hlive a ha)
      simpa [hg] using h a ha l hg


/-- Witness of C8: with `Background` below `Foreground`, both reporting a
widget, the hit test yields the widget of `Foreground`. -/
theorem hitTest_topmost_witness :
    overlapManager.getWidgetFromPoint topItem 10 10 = .done (some 6) ∧
    overlapManager.reports topItem 10 10 = [5, 6] :=
  ⟨(hitTest_topmost topItem overlapManager 10 10 (by decide) (by decide)).1.trans rfl,
    by decide⟩

theorem countP_detach (l : ILayer) (w : Nat) :
    (l.detachLayerItem w).nodes.countP (fun n => decide (n.item = some w)) = 0 := by
  rw [List.countP_eq_zero]
  intro n hn
  simp only [ILayer.detachLayerItem, List.mem_filter, decide_eq_true_eq] at hn
  simpa using hn.2

/-- C9. `attachToLayerKeeper` detaches before it attaches: on a manager whose
active entries are non-null live layers, for a non-null root widget `w` and a
name borne by an active layer, the call returns; the first active layer with
that name has received one fresh node, on top, holding `w`; every other layer
has only lost the node that held `w`; so `w` is held by exactly one node of that
layer and by no node of any other layer. -/
theorem attach_detaches_first (s : LayerManager) (_name : String) (w : Widget)
    (hnn : s.mLayerKeepers = s.active.map some)
    (hlive : ∀ a ∈ s.active, s.heap.live a)
    (hroot : w.isRootWidget = true)
    (hname : _name ∈ s.active.map s.heap.nameAt) :
    ∃ (s2 : LayerManager) (a : Nat) (l : ILayer),
      s.attachToLayerKeeper _name (some w) = .done s2 ∧
      s2.mLayerKeepers = s.mLayerKeepers ∧
      s.active.find? (fun p => decide (s.heap.nameAt p = _name)) = some a ∧
      s.heap.get a = some l ∧
      s2.heap.get a =
        some { l with nodes := (l.detachLayerItem w.addr).nodes ++ [⟨some w.addr⟩] } ∧
      (∀ b, b ≠ a → s2.heap.get b = (s.heap.get b).map fun l2 => l2.detachLayerItem w.addr) ∧
      (∀ b l2, s2.heap.get b = some l2 →
        l2.nodes.countP (fun n => decide (n.item = some w.addr)) = if b = a then 1 else 0) := by
  have hl2 : ∀ p ∈ s.active, (s.heap.detachFromLayer w.addr).live p :=
    fun p hp => Store.live_detach (hlive p hp)
  have hfun : (fun p => decide ((s.heap.detachFromLayer w.addr).nameAt p = _name))
      = (fun p => decide (s.heap.nameAt p = _name)) := by
    funext p; rw [Store.nameAt_detach]
  obtain ⟨a, ha, hna⟩ := List.mem_map.1 hname
  cases hfind : s.active.find? (fun p => decide (s.heap.nameAt p = _name)) with
  | none =>
    have := List.find?_eq_none.1 hfind a ha
    simp [hna] at this
  | some a1 =>
    have ha1 : a1 ∈ s.active := List.mem_of_find?_eq_some hfind
    obtain ⟨l, hg⟩ := Store.live_iff.1 (hlive a1 ha1)
    have hg2 : (s.heap.detachFromLayer w.addr).get a1 = some (l.detachLayerItem w.addr) := by
      rw [Store.get_detach, hg]; rfl
    have hput := Store.get_put
      (ILayer.mk l.name l.type ((l.detachLayerItem w.addr).nodes ++ [⟨some w.addr⟩]))
      (hl2 a1 ha1)
    refine ⟨LayerManager.mk s.mIsInitialise s.mLayerKeepers s.mLayerFactory
      ((s.heap.detachFromLayer w.addr).put a1
        (ILayer.mk l.name l.type ((l.detachLayerItem w.addr).nodes ++ [⟨some w.addr⟩]))),
      a1, l, ?_, ?_, rfl, hg, ?_, ?_, ?_⟩
    · unfold LayerManager.attachToLayerKeeper
      simp only [hroot, if_true]
      rw [hnn, attachLoop_eq _name w.addr _ s.active hl2, hfun, hfind]
      simp only [hg2, Outcome.bind_done]
      rfl
    · rfl
    · simp only [hput a1, if_true]
    · intro b hb
      have hb' : ¬ a1 = b := fun e => hb e.symm
      simp only [hput b, hb', if_false, Store.get_detach]
    · intro b l2 hb
      simp only [hput b] at hb
      by_cases hab : a1 = b
      · simp only [hab, if_true, Option.some.injEq] at hb
        subst hb
        have := countP_detach l w.addr
        simp only [List.countP_append, this, hab, if_true]
        simp
      · have hba : ¬ b = a1 := fun e => hab e.symm
        simp only [hab, if_false, Store.get_detach, Option.map_eq_some'] at hb
        obtain ⟨l0, -, rfl⟩ := hb
        simp only [hba, if_false]
        exact countP_detach l0 w.addr

/-- Witness of C9 on `sampleManager`, where widget 7 is attached to `A`:
attached to `B`, it is held by `B` only. -/
theorem attach_detaches_first_witness :
    ∃ s2 : LayerManager,
      sampleManager.attachToLayerKeeper "B" (some ⟨7, true⟩) = .done s2 ∧
      s2.heap.get 0 = some ⟨"A", "SimpleLayer", []⟩ ∧
      s2.heap.get 1 = some ⟨"B", "SimpleLayer", [⟨some 7⟩]⟩ := by
  obtain ⟨s2, a, l, h1, -, h2, h3, h4, h5, -⟩ :=
    attach_detaches_first sampleManager "B" ⟨7, true⟩ (by decide) (by decide) rfl (by decide)
  have ha : a = 1 := by
    have : sampleManager.active.find? (fun p => decide (sampleManager.heap.nameAt p = "B"))
        = some 1 := by decide
    rw [this] at h2
    injection h2 with h2
    exact h2.symm
  subst ha
  have hl : l = ⟨"B", "SimpleLayer", []⟩ := by
    have : sampleManager.heap.get 1 = some ⟨"B", "SimpleLayer", []⟩ := by decide
    rw [this] at h3
    injection h3 with h3
    exact h3.symm
  subst hl
  exact ⟨s2, h1, (h5 0 (by decide)).trans (by decide), h4.trans (by decide)⟩

theorem isExistLoop_false (h : Store) (n : String) (ks : VectorLayer)
    (hf : isExistLoop h n ks = .done false) :
    ∃ ps : List Nat, ks = ps.map some ∧ (∀ p ∈ ps, h.live p) ∧ n ∉ ps.map h.nameAt := by
  induction ks with
  | nil => exact ⟨[], rfl, by simp, by simp⟩
  | cons p ks ih =>
    cases p with
    | none => simp [isExistLoop, getName] at hf
    | some a =>
      cases hg : h.get a with
      | none => simp [isExistLoop, getName, hg] at hf
      | some l =>
        simp only [isExistLoop, getName, hg, Outcome.bind_done] at hf
        by_cases hn : n = l.name
        · simp [hn] at hf
        · simp only [hn, if_false] at hf
          obtain ⟨ps, h1, h2, h3⟩ := ih hf
          refine ⟨a :: ps, by simp [h1], ?_, ?_⟩
          · intro p hp
            rcases List.mem_cons.1 hp with rfl | hp
            · exact live_of_get hg
            · exact h2 p hp
          · simp only [List.map_cons, List.mem_cons, not_or]
            exact ⟨by rw [nameAt_of_get hg]; exact hn, h3⟩

theorem hitLoop_some (pick : ILayer → Int → Int → Option Nat) (h : Store) (x y : Int)
    (ks : VectorLayer) (i : Nat) (hr : hitLoop pick h x y ks = .done (some i)) :
    ∃ a l, some a ∈ ks ∧ h.get a = some l ∧ pick l x y = some i := by
  induction ks with
  | nil => simp [hitLoop] at hr
  | cons p ks ih =>
    cases p with
    | none => simp [hitLoop] at hr
    | some a =>
      cases hg : h.get a with
      | none => simp [hitLoop, hg] at hr
      | some l =>
        simp only [hitLoop, hg] at hr
        cases hp : pick l x y with
        | none =>
          simp only [hp] at hr
          obtain ⟨b, l2, h1, h2, h3⟩ := ih hr
          exact ⟨b, l2, List.mem_cons_of_mem _ h1, h2, h3⟩
        | some j =>
          simp only [hp, Outcome.done.injEq, Option.some.injEq] at hr
          exact ⟨a, l, by simp, hg, by rw [hp, hr]⟩

theorem not_holds_detach (l : ILayer) (w : Nat) : ¬ (l.detachLayerItem w).holds w := by
  rintro ⟨n, hn, hw⟩
  simp only [ILayer.detachLayerItem, List.mem_filter, decide_eq_true_eq] at hn
  exact hn.2 hw

/-- C10. `attachToLayerKeeper` to a missing layer: for a non-null root widget
`w` and a name for which `isExist` is false, the call returns without error;
its whole effect is the detachment of `w`: every layer keeps its nodes except
the one that held `w` (so no node is created and no layer appears or
disappears), no layer holds `w` afterwards, and no hit test whose layers report
only widgets attached to them returns `w`. -/
theorem attach_missing_layer (s : LayerManager) (_name : String) (w : Widget)
    (hroot : w.isRootWidget = true) (hmiss : s.isExist _name = .done false) :
    ∃ s2 : LayerManager, s.attachToLayerKeeper _name (some w) = .done s2 ∧
      s2.mLayerKeepers = s.mLayerKeepers ∧
      (∀ b, s2.heap.get b = (s.heap.get b).map fun l => l.detachLayerItem w.addr) ∧
      (∀ b l2, s2.heap.get b = some l2 →
        ¬ l2.holds w.addr ∧ ∃ l, s.heap.get b = some l ∧ l2.nodes.Sublist l.nodes) ∧
      ∀ pick : ILayer → Int → Int → Option Nat, PickReportsAttached pick →
        ∀ x y : Int, s2.getWidgetFromPoint pick x y ≠ .done (some w.addr) := by
  obtain ⟨ps, hk, hl, hn⟩ := isExistLoop_false s.heap _name s.mLayerKeepers hmiss
  have hl2 : ∀ p ∈ ps, (s.heap.detachFromLayer w.addr).live p :=
    fun p hp => Store.live_detach (hl p hp)
  have hfind : ps.find? (fun p => decide ((s.heap.detachFromLayer w.addr).nameAt p = _name))
      = none := by
    rw [List.find?_eq_none]
    intro p hp
    simp only [Store.nameAt_detach, decide_eq_true_eq]
    exact fun e => hn (e ▸ List.mem_map_of_mem _ hp)
  have hholds : ∀ b l2, (s.heap.detachFromLayer w.addr).get b = some l2 →
      ¬ l2.holds w.addr ∧ ∃ l, s.heap.get b = some l ∧ l2.nodes.Sublist l.nodes := by
    intro b l2 hb
    rw [Store.get_detach, Option.map_eq_some'] at hb
    obtain ⟨l, hg, rfl⟩ := hb
    exact ⟨not_holds_detach l w.addr, l, hg, List.filter_sublist _⟩
  refine ⟨LayerManager.mk s.mIsInitialise s.mLayerKeepers s.mLayerFactory
    (s.heap.detachFromLayer w.addr), ?_, rfl, fun b => Store.get_detach _ _ _, hholds, ?_⟩
  · unfold LayerManager.attachToLayerKeeper
    simp only [hroot, if_true]
    rw [hk, attachLoop_eq _name w.addr _ ps hl2, hfind]
    rfl
  · intro pick hpick x y hr
    obtain ⟨a, l, -, hg, hp⟩ := hitLoop_some pick _ x y _ w.addr hr
    exact (hholds a l hg).1 (hpick l x y w.addr hp)


theorem topItem_attached : PickReportsAttached topItem := by
  intro l x y i h
  have hm : i ∈ l.nodes.reverse.filterMap fun n => n.item := List.mem_of_mem_head? h
  obtain ⟨n, hn, hi⟩ := List.mem_filterMap.1 hm
  exact ⟨n, List.mem_reverse.1 hn, hi⟩

/-- Witness of C10 on `sampleManager`, where widget 7 is attached to `A`:
attached to a layer that does not exist, it is held by no layer and no hit
test returns it. -/
theorem attach_missing_layer_witness :
    ∃ s2 : LayerManager,
      sampleManager.attachToLayerKeeper "NonExistent" (some ⟨7, true⟩) = .done s2 ∧
      s2.heap.get 0 = some ⟨"A", "SimpleLayer", []⟩ ∧
      s2.getWidgetFromPoint topItem 0 0 ≠ .done (some 7) := by
  obtain ⟨s2, h1, -, h2, -, h3⟩ :=
    attach_missing_layer sampleManager "NonExistent" ⟨7, true⟩ rfl rfl
  exact ⟨s2, h1, (h2 0).trans (by decide), h3 topItem topItem_attached 0 0⟩

/-! ## Registry and lifecycle -/

/-- C12. `addLayerFactory` rejects duplicates: the call ends in a failed
assertion if and only if the name is already a key of the registry, and then
the state (the registry with it) is unchanged; otherwise it returns, the
registry maps the name to the factory and every other entry is as before. -/
theorem addLayerFactory_spec (s : LayerManager) (_name : String) (_factory : ILayerFactory) :
    ((∃ msg s2, s.addLayerFactory _name _factory = .raised msg s2) ↔
      (s.mLayerFactory _name).isSome = true) ∧
    (∀ msg s2, s.addLayerFactory _name _factory = .raised msg s2 → s2 = s) ∧
    ((s.mLayerFactory _name).isSome = false →
      ∃ s2 : LayerManager, s.addLayerFactory _name _factory = .done s2 ∧
        s2.mLayerFactory _name = some _factory ∧
        (∀ k, k ≠ _name → s2.mLayerFactory k = s.mLayerFactory k) ∧
        s2.mLayerKeepers = s.mLayerKeepers ∧ s2.heap = s.heap ∧
        s2.mIsInitialise = s.mIsInitialise) := by
  unfold LayerManager.addLayerFactory
  cases hk : s.mLayerFactory _name with
  | some f =>
    refine ⟨⟨fun _ => rfl, fun _ => ⟨_, s, rfl⟩⟩, ?_, ?_⟩
    · intro msg s2 h
      injection h with _ h
      exact h.symm
    · intro h; cases h
  | none =>
    refine ⟨⟨?_, ?_⟩, ?_, ?_⟩
    · rintro ⟨msg, s2, h⟩; cases h
    · intro h; cases h
    · intro msg s2 h; cases h
    · intro _
      refine ⟨_, rfl, by simp, ?_, rfl, rfl, rfl⟩
      intro k hk2
      simp [hk2]

/-- C13. `removeLayerFactory` by name: the call ends in a failed assertion if
and only if the name is not a key of the registry, and then the state is
unchanged; otherwise the name is no longer a key and every other entry is as
before, whatever the delete flag; so registering a name that was not a key and
removing it again gives back the registry one started from, and in every case
the state after `addLayerFactory` followed by `removeLayerFactory` (the second
being skipped when the first raises) is the state one started from. -/
theorem removeLayerFactory_spec (s : LayerManager) (_name : String) (_delete : Bool) :
    ((∃ msg s2, s.removeLayerFactory _name _delete = .raised msg s2) ↔
      (s.mLayerFactory _name).isSome = false) ∧
    (∀ msg s2, s.removeLayerFactory _name _delete = .raised msg s2 → s2 = s) ∧
    ((s.mLayerFactory _name).isSome = true →
      ∃ s2 : LayerManager, s.removeLayerFactory _name _delete = .done s2 ∧
        (s2.mLayerFactory _name).isSome = false ∧
        (∀ k, k ≠ _name → s2.mLayerFactory k = s.mLayerFactory k) ∧
        s2.mLayerKeepers = s.mLayerKeepers ∧ s2.heap = s.heap ∧
        s2.mIsInitialise = s.mIsInitialise) ∧
    (∀ f : ILayerFactory, (s.mLayerFactory _name).isSome = false →
      ∃ s1 s2 : LayerManager, s.addLayerFactory _name f = .done s1 ∧
        s1.removeLayerFactory _name false = .done s2 ∧
        s2.mLayerFactory = s.mLayerFactory ∧ s2 = s) ∧
    (∀ f : ILayerFactory,
      ((s.addLayerFactory _name f).bind fun s1 => s1.removeLayerFactory _name false).after
        = some s) := by
  refine ⟨?_, ?_, ?_, ?_, ?_⟩
  · unfold LayerManager.removeLayerFactory
    cases hk : s.mLayerFactory _name with
    | none => exact ⟨fun _ => rfl, fun _ => ⟨_, s, rfl⟩⟩
    | some f =>
      constructor
      · rintro ⟨msg, s2, h⟩; cases h
      · intro h; cases h
  · unfold LayerManager.removeLayerFactory
    cases hk : s.mLayerFactory _name with
    | none =>
      intro msg s2 h
      injection h with _ h
      exact h.symm
    | some f => intro msg s2 h; cases h
  · unfold LayerManager.removeLayerFactory
    cases hk : s.mLayerFactory _name with
    | none => intro h; cases h
    | some f =>
      intro _
      refine ⟨_, rfl, by simp, ?_, rfl, rfl, rfl⟩
      intro k hk2
      simp [hk2]
  · intro f hk
    have hn : s.mLayerFactory _name = none := by
      cases h : s.mLayerFactory _name with
      | none => rfl
      | some g => rw [h] at hk; cases hk
    have hreg : (fun k => if k = _name then none
        else (fun k => if k = _name then some f else s.mLayerFactory k) k) = s.mLayerFactory := by
      funext k
      by_cases hkn : k = _name
      · simp [hkn, hn]
      · simp [hkn]
    refine ⟨{ s with mLayerFactory := fun k => if k = _name then some f else s.mLayerFactory k },
      s, ?_, ?_, rfl, rfl⟩
    · simp [LayerManager.addLayerFactory, hn]
    · simp only [LayerManager.removeLayerFactory, if_true]
      rw [hreg]
  · intro f
    cases hk : s.mLayerFactory _name with
    | some g => simp [LayerManager.addLayerFactory, hk, Outcome.after]
    | none =>
      have hreg : (fun k => if k = _name then none
          else (fun k => if k = _name then some f else s.mLayerFactory k) k)
          = s.mLayerFactory := by
        funext k
        by_cases hkn : k = _name
        · simp [hkn, hk]
        · simp [hkn]
      simp only [LayerManager.addLayerFactory, hk, Outcome.bind_done,
        LayerManager.removeLayerFactory, if_true]
      rw [hreg]
      rfl

theorem clearLoop_eq (ps : List Nat) (h : Store) (hl : ∀ p ∈ ps, h.live p) (hnd : ps.Nodup) :
    clearLoop (ps.map some) h = .done (h.freeAll ps) := by
  induction ps generalizing h with
  | nil => rfl
  | cons p ps ih =>
    rw [List.nodup_cons] at hnd
    simp only [List.map_cons, clearLoop, destroy_live (hl p (by simp)), Outcome.bind_done]
    rw [ih (h.free p) ?_ hnd.2]
    · rfl
    · intro q hq
      exact Store.live_free (fun e => hnd.1 (e ▸ hq)) (hl q (List.mem_cons_of_mem _ hq))

theorem clear_eq (s : LayerManager) (hnn : s.mLayerKeepers = s.active.map some)
    (hl : ∀ a ∈ s.active, s.heap.live a) (hnd : s.active.Nodup) :
    s.clear = .done { s with mLayerKeepers := [], heap := s.heap.freeAll s.active } := by
  unfold LayerManager.clear
  rw [hnn, clearLoop_eq s.active s.heap hl hnd]
  simp only [Outcome.bind_done, ← hnn]

/-- C14, as stated, fails: on the initialised manager `halfRegistered`,
whose registry lacks `SimpleLayer`, `shutdown` does not complete: the
assertion of `removeLayerFactory` fails, the guard flag stays true and the
active layer stays alive in the active sequence. -/
theorem shutdown_incomplete :
    halfRegistered.mIsInitialise = true ∧
    ∃ s2 : LayerManager,
      halfRegistered.shutdown = .raised "factory is 'SimpleLayer' not found" s2 ∧
      s2.mIsInitialise = true ∧ s2.mLayerKeepers = [some 0] ∧ s2.heap.live 0 :=
  ⟨rfl, _, rfl, rfl, rfl, by decide⟩

/-- C14, amended. `shutdown` on an uninitialised manager changes nothing. On
an initialised manager whose registry holds both built-in keys and whose
active entries are non-null, live, distinct layers, `shutdown` returns with the
guard flag false, the active sequence empty, every previously active layer
deleted and neither built-in key registered, the rest of the registry and of
the store being as before. On an initialised manager whose registry lacks a
built-in key it ends in the failed assertion of `removeLayerFactory`, the flag
still true. -/
theorem shutdown_spec (s : LayerManager) :
    (s.mIsInitialise = false → s.shutdown = .done s) ∧
    (s.mIsInitialise = true →
      (s.mLayerFactory "SimpleLayer").isSome = true →
      (s.mLayerFactory "OverlappedLayer").isSome = true →
      s.mLayerKeepers = s.active.map some → (∀ a ∈ s.active, s.heap.live a) → s.active.Nodup →
      ∃ s2 : LayerManager, s.shutdown = .done s2 ∧ s2.mIsInitialise = false ∧
        s2.mLayerKeepers = [] ∧ (∀ a ∈ s.active, s2.heap.get a = none) ∧
        (∀ a, a ∉ s.active → s2.heap.get a = s.heap.get a) ∧
        s2.mLayerFactory "SimpleLayer" = none ∧ s2.mLayerFactory "OverlappedLayer" = none ∧
        ∀ k, k ≠ "SimpleLayer" → k ≠ "OverlappedLayer" →
          s2.mLayerFactory k = s.mLayerFactory k) ∧
    (s.mIsInitialise = true →
      ((s.mLayerFactory "SimpleLayer").isSome = false ∨
        (s.mLayerFactory "OverlappedLayer").isSome = false) →
      ∃ msg s2, s.shutdown = .raised msg s2 ∧ s2.mIsInitialise = true ∧
        s2.mLayerKeepers = s.mLayerKeepers ∧ s2.heap = s.heap) := by
  refine ⟨?_, ?_, ?_⟩
  · intro h
    simp [LayerManager.shutdown, h]
  · intro hi hs ho hnn hl hnd
    obtain ⟨fs, hfs⟩ := Option.isSome_iff_exists.1 hs
    obtain ⟨fo, hfo⟩ := Option.isSome_iff_exists.1 ho
    have h1 : s.removeLayerFactory "OverlappedLayer" true = .done
        (LayerManager.mk s.mIsInitialise s.mLayerKeepers
          (fun k => if k = "OverlappedLayer" then none else s.mLayerFactory k) s.heap) := by
      simp [LayerManager.removeLayerFactory, hfo]
    have h2 : (LayerManager.mk s.mIsInitialise s.mLayerKeepers
          (fun k => if k = "OverlappedLayer" then none else s.mLayerFactory k)
          s.heap).removeLayerFactory "SimpleLayer" true = .done
        (LayerManager.mk s.mIsInitialise s.mLayerKeepers
          (fun k => if k = "SimpleLayer" then none
            else if k = "OverlappedLayer" then none else s.mLayerFactory k) s.heap) := by
      have hne : ("SimpleLayer" = "OverlappedLayer") = False := by decide
      simp [LayerManager.removeLayerFactory, hfs, hne]
    have h3 := clear_eq
      (LayerManager.mk s.mIsInitialise s.mLayerKeepers
        (fun k => if k = "SimpleLayer" then none
          else if k = "OverlappedLayer" then none else s.mLayerFactory k) s.heap)
      hnn hl hnd
    refine ⟨LayerManager.mk false []
      (fun k => if k = "SimpleLayer" then none
        else if k = "OverlappedLayer" then none else s.mLayerFactory k)
      (s.heap.freeAll s.active), ?_, rfl, rfl, ?_, ?_, by simp, by simp, ?_⟩
    · unfold LayerManager.shutdown
      rw [if_neg (by simp [hi]), h1]
      simp only [Outcome.bind_done]
      rw [h2]
      simp only [Outcome.bind_done]
      rw [h3]
      rfl
    · intro a ha
      simp [Store.get_freeAll, ha]
    · intro a ha
      simp [Store.get_freeAll, ha]
    · intro k h1 h2
      simp [h1, h2]
  · intro hi hmiss
    cases ho : s.mLayerFactory "OverlappedLayer" with
    | none =>
      exact ⟨"factory is 'OverlappedLayer' not found", s,
        by simp [LayerManager.shutdown, hi, LayerManager.removeLayerFactory, ho], hi, rfl, rfl⟩
    | some fo =>
      have hs : s.mLayerFactory "SimpleLayer" = none := by
        rcases hmiss with h | h
        · cases h2 : s.mLayerFactory "SimpleLayer" with
          | none => rfl
          | some g => rw [h2] at h; cases h
        · rw [ho] at h; cases h
      have hne : ("SimpleLayer" = "OverlappedLayer") = False := by decide
      refine ⟨"factory is 'SimpleLayer' not found",
        LayerManager.mk s.mIsInitialise s.mLayerKeepers
          (fun k => if k = "OverlappedLayer" then none else s.mLayerFactory k) s.heap,
        ?_, hi, rfl, rfl⟩
      simp only [LayerManager.shutdown, hi, Bool.true_eq_false, if_false,
        LayerManager.removeLayerFactory, ho, Outcome.bind_done, hne, hs]
      rfl

/-- C15, as stated, fails: on the manager `earlyRegistered`, whose guard
flag is false and whose registry already holds `SimpleLayer`, `initialise` ends
in the failed assertion of `addLayerFactory`; the flag stays false and
`OverlappedLayer` is not registered. -/
theorem initialise_incomplete :
    earlyRegistered.mIsInitialise = false ∧
    ∃ s2 : LayerManager,
      earlyRegistered.initialise = .raised "factory is 'SimpleLayer' already exist" s2 ∧
      s2.mIsInitialise = false ∧ (s2.mLayerFactory "OverlappedLayer").isSome = false :=
  ⟨rfl, _, rfl, rfl, rfl⟩

/-- C15, amended. On a manager whose guard flag is true `initialise` ends in a
failed assertion and leaves the state (flag, registry, active sequence) as it
was. On a manager whose guard flag is false and whose registry holds neither
built-in key, `initialise` returns with the flag true and the two built-in
factories registered under `SimpleLayer` and `OverlappedLayer`, nothing else
changed. On a manager whose guard flag is false and whose registry already
holds a built-in key it ends in the failed assertion of `addLayerFactory`, the
flag still false. -/
theorem initialise_spec (s : LayerManager) :
    (s.mIsInitialise = true → ∃ msg, s.initialise = .raised msg s) ∧
    (s.mIsInitialise = false →
      (s.mLayerFactory "SimpleLayer").isSome = false →
      (s.mLayerFactory "OverlappedLayer").isSome = false →
      ∃ s2 : LayerManager, s.initialise = .done s2 ∧ s2.mIsInitialise = true ∧
        s2.mLayerFactory "SimpleLayer" = some SimpleLayerFactory ∧
        s2.mLayerFactory "OverlappedLayer" = some OverlappedLayerFactory ∧
        (∀ k, k ≠ "SimpleLayer" → k ≠ "OverlappedLayer" →
          s2.mLayerFactory k = s.mLayerFactory k) ∧
        s2.mLayerKeepers = s.mLayerKeepers ∧ s2.heap = s.heap) ∧
    (s.mIsInitialise = false →
      ((s.mLayerFactory "SimpleLayer").isSome = true ∨
        (s.mLayerFactory "OverlappedLayer").isSome = true) →
      ∃ msg s2, s.initialise = .raised msg s2 ∧ s2.mIsInitialise = false ∧
        s2.mLayerKeepers = s.mLayerKeepers ∧ s2.heap = s.heap) := by
  have hne : ("OverlappedLayer" = "SimpleLayer") = False := by decide
  refine ⟨?_, ?_, ?_⟩
  · intro h
    exact ⟨"LayerManager initialised twice", by simp [LayerManager.initialise, h]⟩
  · intro hi hs ho
    have hs2 : s.mLayerFactory "SimpleLayer" = none := by
      cases h : s.mLayerFactory "SimpleLayer" with
      | none => rfl
      | some g => rw [h] at hs; cases hs
    have ho2 : s.mLayerFactory "OverlappedLayer" = none := by
      cases h : s.mLayerFactory "OverlappedLayer" with
      | none => rfl
      | some g => rw [h] at ho; cases ho
    refine ⟨LayerManager.mk true s.mLayerKeepers
      (fun k => if k = "OverlappedLayer" then some OverlappedLayerFactory
        else if k = "SimpleLayer" then some SimpleLayerFactory else s.mLayerFactory k) s.heap,
      ?_, rfl, ?_, ?_, ?_, rfl, rfl⟩
    · simp [LayerManager.initialise, hi, LayerManager.addLayerFactory, hs2, ho2, hne]
    · have : ("SimpleLayer" = "OverlappedLayer") = False := by decide
      simp [this]
    · simp
    · intro k h1 h2
      simp [h1, h2]
  · intro hi hreg
    cases hs : s.mLayerFactory "SimpleLayer" with
    | some g =>
      exact ⟨"factory is 'SimpleLayer' already exist", s,
        by simp [LayerManager.initialise, hi, LayerManager.addLayerFactory, hs], hi, rfl, rfl⟩
    | none =>
      have ho : ∃ g, s.mLayerFactory "OverlappedLayer" = some g := by
        rcases hreg with h | h
        · rw [hs] at h; cases h
        · exact Option.isSome_iff_exists.1 h
      obtain ⟨g, ho⟩ := ho
      refine ⟨"factory is 'OverlappedLayer' already exist",
        LayerManager.mk s.mIsInitialise s.mLayerKeepers
          (fun k => if k = "SimpleLayer" then some SimpleLayerFactory else s.mLayerFactory k)
          s.heap, ?_, hi, rfl, rfl⟩
      simp [LayerManager.initialise, hi, LayerManager.addLayerFactory, hs, ho, hne]

theorem doRenderLoop_eq (h : Store) (u : Bool) (ps : List Nat) (hl : ∀ p ∈ ps, h.live p) :
    doRenderLoop h u (ps.map some) = .done (ps.map fun a => (a, u)) := by
  induction ps with
  | nil => rfl
  | cons p ps ih =>
    obtain ⟨l, hp⟩ := Store.live_iff.1 (hl p (by simp))
    simp [doRenderLoop, hp, ih (fun a ha => hl a (List.mem_cons_of_mem _ ha))]

/-- C16. `doRender` visits every layer once, bottom to top: on a manager
whose active entries are non-null live layers, `doRender(flag)` returns after
one render step per entry of the active sequence, in sequence order, each
given the flag unchanged; the layers visited are the same for both flag
values; and the call leaves the manager in the state it was called in. -/
theorem doRender_visits (s : LayerManager) (_update : Bool)
    (hnn : s.mLayerKeepers = s.active.map some)
    (hlive : ∀ a ∈ s.active, s.heap.live a) :
    s.doRender _update = .done (s.active.map fun a => (a, _update)) ∧
    (∀ i a : Nat, s.active[i]? = some a →
      ∃ t : List (Nat × Bool), s.doRender _update = .done t ∧ t[i]? = some (a, _update) ∧
        t.length = s.active.length) ∧
    (∃ t1 t2 : List (Nat × Bool), s.doRender false = .done t1 ∧ s.doRender true = .done t2 ∧
      t1.map Prod.fst = s.active ∧ t2.map Prod.fst = s.active) ∧
    (s.doRender _update).afterQuery s = some s := by
  have h : ∀ u, s.doRender u = .done (s.active.map fun a => (a, u)) := by
    intro u
    unfold LayerManager.doRender
    rw [hnn, doRenderLoop_eq s.heap u s.active hlive]
  refine ⟨h _, ?_, ?_, ?_⟩
  · intro i a hi
    exact ⟨_, h _, by simp [hi], by simp⟩
  · exact ⟨_, _, h false, h true, by simp [Function.comp_def], by simp [Function.comp_def]⟩
  · rw [h]; rfl

/-- Witness of C16 on `overlapManager`: `Background` is rendered first,
`Foreground` second, with the flag passed on. -/
theorem doRender_visits_witness :
    overlapManager.doRender true = .done [(0, true), (1, true)] :=
  (doRender_visits overlapManager true (by decide) (by decide)).1

theorem reduceOption_map_some (l : List Nat) : (l.map some).reduceOption = l := by
  induction l with
  | nil => rfl
  | cons a l ih => simp [List.reduceOption_cons_of_some, ih]

theorem merged_active (s : LayerManager) (cand : List Nat) :
    (s.merged cand).active = (reconcile s.heap.nameAt s.active cand).1 := by
  simp [LayerManager.merged, LayerManager.active, reduceOption_map_some]

/-- With several old layers of one name, the last of them ends in the first
position whose candidate bears the name; the candidate and the earlier old
layers of that name are deleted. -/
theorem reconcile_last (nm : Nat → String) (pre post : List Nat) (a : Nat)
    (layers : List Nat) (i c : Nat)
    (hc : layers[i]? = some c) (hn : nm c = nm a)
    (hfirst : ∀ k x, k < i → layers[k]? = some x → nm x ≠ nm a)
    (hpost : ∀ x ∈ post, nm x ≠ nm a) :
    (reconcile nm (pre ++ a :: post) layers).1[i]? = some a ∧
    c ∈ (reconcile nm (pre ++ a :: post) layers).2 ∧
    ∀ b ∈ pre, nm b = nm a → b ∈ (reconcile nm (pre ++ a :: post) layers).2 := by
  have hslot : ∀ (b : Nat) (layers : List Nat) (c : Nat), nm b = nm a →
      layers[i]? = some c → nm c = nm a →
      (∀ k x, k < i → layers[k]? = some x → nm x ≠ nm a) →
      ∃ r, findSlot nm (nm b) b layers = some r ∧ r.2 = c ∧ r.1 = layers.set i b := by
    intro b layers c hb hc hn hfirst
    cases hf : findSlot nm (nm b) b layers with
    | none =>
      exact absurd (hn.trans hb.symm) (findSlot_none.1 hf c (List.getElem?_mem hc))
    | some r =>
      obtain ⟨j, h1, h2, h3, h4⟩ := findSlot_set hf
      have hji : j = i := by
        rcases Nat.lt_trichotomy j i with hlt | heq | hgt
        · exact absurd (h3.trans hb) (hfirst j r.2 hlt h1)
        · exact heq
        · exact absurd (hn.trans hb.symm) (h4 i c hgt hc)
      subst hji
      exact ⟨r, rfl, by rw [h1] at hc; injection hc, h2⟩
  induction pre generalizing layers c with
  | nil =>
    obtain ⟨r, hf, h1, h2⟩ := hslot a layers c rfl hc hn hfirst
    simp only [List.nil_append, reconcile, hf]
    refine ⟨?_, by simp [h1], by simp⟩
    refine reconcile_new nm post r.1 i a ?_ hpost
    rw [h2, List.getElem?_set_self (List.getElem?_eq_some.1 hc).1]
  | cons b pre ih =>
    simp only [List.cons_append, reconcile]
    by_cases hb : nm b = nm a
    · obtain ⟨r, hf, h1, h2⟩ := hslot b layers c hb hc hn hfirst
      have hlt := (List.getElem?_eq_some.1 hc).1
      obtain ⟨g1, g2, g3⟩ := ih r.1 b
        (by rw [h2, List.getElem?_set_self hlt]) hb
        (by
          intro k x hk hx
          rw [h2, List.getElem?_set_ne (by omega)] at hx
          exact hfirst k x hk hx)
      simp only [hf]
      refine ⟨g1, by simp [h1], ?_⟩
      intro x hx hxn
      rcases List.mem_cons.1 hx with rfl | hx
      · exact List.mem_cons_of_mem _ g2
      · exact List.mem_cons_of_mem _ (g3 x hx hxn)
    · cases hf : findSlot nm (nm b) b layers with
      | none =>
        obtain ⟨g1, g2, g3⟩ := ih layers c hc hn hfirst
        refine ⟨g1, List.mem_cons_of_mem _ g2, ?_⟩
        intro x hx hxn
        rcases List.mem_cons.1 hx with rfl | hx
        · exact absurd hxn hb
        · exact List.mem_cons_of_mem _ (g3 x hx hxn)
      | some r =>
        obtain ⟨j, h1, h2, h3, h4⟩ := findSlot_set hf
        have hji : j ≠ i := by
          rintro rfl
          rw [h1] at hc; injection hc with hc
          exact hb (h3.symm.trans ((congrArg nm hc).trans hn))
        obtain ⟨g1, g2, g3⟩ := ih r.1 c
          (by rw [h2, List.getElem?_set_ne hji, hc]) hn
          (by
            intro k x hk hx
            rw [h2] at hx
            by_cases hjk : j = k
            · subst hjk
              rw [List.getElem?_set_self (List.getElem?_eq_some.1 h1).1] at hx
              injection hx with hx
              rw [← hx]; exact hb
            · rw [List.getElem?_set_ne hjk] at hx
              exact hfirst k x hk hx)
        refine ⟨g1, List.mem_cons_of_mem _ g2, ?_⟩
        intro x hx hxn
        rcases List.mem_cons.1 hx with rfl | hx
        · exact absurd hxn hb
        · exact List.mem_cons_of_mem _ (g3 x hx hxn)

/-- C17, as stated, fails: in `duplicateManager` the active layers at
addresses 0 and 1 are both named `A`, as is the candidate at address 2; after
merge the active sequence holds the second of them (address 1) and the first
(address 0) has been deleted. -/
theorem merge_first_duplicate_dies :
    ∃ s2 : LayerManager, duplicateManager.merge [some 2] = .done s2 ∧
      s2.mLayerKeepers = [some 1] ∧ s2.heap.get 0 = none ∧ s2.heap.get 2 = none ∧
      s2.heap.get 1 = duplicateManager.heap.get 1 :=
  ⟨_, rfl, rfl, by decide, by decide, by decide⟩

/-- C17, amended. merge with duplicate names in the active sequence: when
several active layers share a name that a candidate bears, the last of them in
sequence order ends in the position of the first candidate with that name,
untouched, and survives in the new active sequence; every earlier active layer
of that name is deleted and is absent from the new active sequence, and so is
the candidate. -/
theorem merge_duplicates (s : LayerManager) (cand pre post : List Nat) (a i c : Nat)
    (hlive : ∀ x ∈ s.active ++ cand, s.heap.live x)
    (hdist : (s.active ++ cand).Nodup)
    (hact : s.active = pre ++ a :: post)
    (hpost : ∀ x ∈ post, s.heap.nameAt x ≠ s.heap.nameAt a)
    (hc : cand[i]? = some c) (hn : s.heap.nameAt c = s.heap.nameAt a)
    (hfirst : ∀ x ∈ cand.take i, s.heap.nameAt x ≠ s.heap.nameAt a) :
    ∃ s2 : LayerManager, s.merge (cand.map some) = .done s2 ∧
      s2.mLayerKeepers[i]? = some (some a) ∧ s2.heap.get a = s.heap.get a ∧
      s2.heap.get c = none ∧ some c ∉ s2.mLayerKeepers ∧
      ∀ b ∈ pre, s.heap.nameAt b = s.heap.nameAt a →
        s2.heap.get b = none ∧ some b ∉ s2.mLayerKeepers := by
  have hfirst2 : ∀ k x, k < i → cand[k]? = some x → s.heap.nameAt x ≠ s.heap.nameAt a := by
    intro k x hk hx
    have hx2 : (cand.take i)[k]? = some x := by
      rw [List.getElem?_take_of_lt hk]; exact hx
    exact hfirst x (List.getElem?_mem hx2)
  obtain ⟨h1, h2, h3⟩ := reconcile_last s.heap.nameAt pre post a cand i c hc hn hfirst2 hpost
  rw [← hact] at h1 h2 h3
  have hgone : ∀ x, x ∈ (reconcile s.heap.nameAt s.active cand).2 →
      (s.merged cand).heap.get x = none ∧ some x ∉ (s.merged cand).mLayerKeepers := by
    intro x hx
    refine ⟨merged_get_freed hx, ?_⟩
    intro hm
    have hm2 : x ∈ (reconcile s.heap.nameAt s.active cand).1 := by
      rw [← merged_active]; exact mem_active.2 hm
    exact reconcile_disjoint hdist hm2 hx
  refine ⟨s.merged cand, merge_eq s cand hlive hdist, ?_,
    merged_get_kept hdist (List.getElem?_mem h1), (hgone c h2).1, (hgone c h2).2, ?_⟩
  · simp [LayerManager.merged, h1]
  · intro b hb hbn
    exact hgone b (h3 b hb hbn)

/-- Witness of C17, amended, on `duplicateManager`: the second layer named `A`
survives, the first one and the candidate are deleted. -/
theorem merge_duplicates_witness :
    ∃ s2 : LayerManager, duplicateManager.merge ([2].map some) = .done s2 ∧
      s2.mLayerKeepers[0]? = some (some 1) ∧ s2.heap.get 0 = none ∧ s2.heap.get 2 = none := by
  obtain ⟨s2, h1, h2, -, h3, -, h4⟩ :=
    merge_duplicates duplicateManager [2] [0] [] 1 0 2 (by decide) (by decide) (by decide)
      (by decide) (by decide) (by decide) (by decide)
  exact ⟨s2, h1, h2, (h4 0 (by decide) (by decide)).1, h3⟩

/-- C18. merge accounts for every layer object exactly once: on active
layers and candidates that are live, pairwise distinct objects (whatever their
names), merge returns without a fault (in particular it never reads the name of
a deleted object and never deletes one twice); the store it leaves is the
initial store with the objects of a list `freed` deleted; the new active
sequence has no null entry and, together with `freed`, is a rearrangement of
the old active layers and the candidates; so each of these objects is either at
exactly one position of the new active sequence, alive and untouched, or
deleted exactly once and absent from it. -/
theorem merge_accounts (s : LayerManager) (cand : List Nat)
    (hlive : ∀ a ∈ s.active ++ cand, s.heap.live a)
    (hdist : (s.active ++ cand).Nodup) :
    ∃ (s2 : LayerManager) (freed : List Nat), s.merge (cand.map some) = .done s2 ∧
      s.merge (cand.map some) ≠ .fault ∧
      s2.mLayerKeepers = s2.active.map some ∧ s2.heap = s.heap.freeAll freed ∧
      (s2.active ++ freed).Perm (s.active ++ cand) ∧
      ∀ a ∈ s.active ++ cand,
        (s2.active.count a = 1 ∧ freed.count a = 0 ∧ s2.heap.get a = s.heap.get a) ∨
        (s2.active.count a = 0 ∧ freed.count a = 1 ∧ s2.heap.get a = none) := by
  have hm := merge_eq s cand hlive hdist
  have hp := reconcile_perm s.heap.nameAt s.active cand
  have hnd := hp.nodup_iff.2 hdist
  refine ⟨s.merged cand, (reconcile s.heap.nameAt s.active cand).2, hm, by rw [hm]; simp, ?_,
    rfl, by rw [merged_active]; exact hp, ?_⟩
  · rw [merged_active]; rfl
  · intro a ha
    rw [merged_active]
    have hmem := hp.mem_iff.2 ha
    have hnd1 := (List.nodup_append.1 hnd).1
    have hnd2 := (List.nodup_append.1 hnd).2.1
    rcases List.mem_append.1 hmem with h1 | h2
    · left
      exact ⟨List.count_eq_one_of_mem hnd1 h1,
        List.count_eq_zero_of_not_mem (reconcile_disjoint hdist h1), merged_get_kept hdist h1⟩
    · right
      refine ⟨List.count_eq_zero_of_not_mem (fun h1 => reconcile_disjoint hdist h1 h2),
        List.count_eq_one_of_mem hnd2 h2, merged_get_freed h2⟩

/-- Witness of C18 on `duplicateManager`, whose active layers share a name:
of the three objects one is kept and two are deleted, each once. -/
theorem merge_accounts_witness :
    ∃ (s2 : LayerManager) (freed : List Nat),
      duplicateManager.merge ([2].map some) = .done s2 ∧
      (s2.active ++ freed).Perm [0, 1, 2] ∧ s2.heap = duplicateManager.heap.freeAll freed := by
  obtain ⟨s2, freed, h1, -, -, h2, h3, -⟩ :=
    merge_accounts duplicateManager [2] (by decide) (by decide)
  exact ⟨s2, freed, h1, h3, h2⟩

/-! ## Reloading a description -/

theorem Store.length_freeAll (as : List Nat) (h : Store) :
    (h.freeAll as).cells.length = h.cells.length := by
  induction as generalizing h with
  | nil => rfl
  | cons a as ih =>
    have := ih (h.free a)
    simp only [Store.freeAll, List.foldl_cons] at this ⊢
    rw [this]
    simp [Store.free]

theorem Store.get_of_length_le {h : Store} {a : Nat} (ha : h.cells.length ≤ a) :
    h.get a = none := by
  unfold Store.get
  rw [List.getElem?_eq_none ha]; rfl

/-- When the old layers bear, position by position, the names of the
candidates, and those names are distinct, every old layer is kept in its
position. -/
theorem reconcile_same (nm : Nat → String) (keepers layers : List Nat)
    (hsame : keepers.map nm = layers.map nm) (hu : (keepers.map nm).Nodup) :
    (reconcile nm keepers layers).1 = keepers := by
  have hlen : keepers.length = layers.length := by
    simpa using congrArg List.length hsame
  apply List.ext_getElem?
  intro i
  by_cases hi : i < keepers.length
  · have hi2 : i < layers.length := hlen ▸ hi
    have hk : keepers[i]? = some keepers[i] := List.getElem?_eq_getElem hi
    have hc : layers[i]? = some layers[i] := List.getElem?_eq_getElem hi2
    have hn : nm keepers[i] = nm layers[i] := by
      have := congrArg (fun l => l[i]?) hsame
      simpa [hk, hc] using this
    rw [hk]
    exact (reconcile_reuse nm keepers layers i keepers[i] layers[i] hu
      (List.getElem_mem hi) hc hn
      (fun k x hkx hx => nodup_first nm (hsame ▸ hu) hc hx hkx)).1
  · rw [List.getElem?_eq_none (by rw [reconcile_length]; omega),
      List.getElem?_eq_none (by omega)]

theorem reconcile_same_freed (nm : Nat → String) (keepers layers : List Nat)
    (hsame : keepers.map nm = layers.map nm) (hu : (keepers.map nm).Nodup) :
    ((reconcile nm keepers layers).2).Perm layers := by
  have hp := reconcile_perm nm keepers layers
  rw [reconcile_same nm keepers layers hsame hu] at hp
  exact (List.perm_append_left_iff keepers).1 hp

theorem layerNames_of_named (es : List xml.Element)
    (hnamed : ∀ e ∈ es, (e.findAttribute? "name").isSome = true) :
    layerNames es = es.map (fun e => e.findAttribute "name") := by
  induction es with
  | nil => rfl
  | cons e es ih =>
    obtain ⟨n, hn⟩ := Option.isSome_iff_exists.1 (hnamed e (by simp))
    have ih := ih (fun x hx => hnamed x (List.mem_cons_of_mem _ hx))
    simp only [layerNames, List.filterMap_cons, hn, List.map_cons,
      xml.Element.findAttribute, Option.getD_some] at ih ⊢
    rw [ih]

/-- The state `_load` returns on well-formed data and valid pointers. -/
theorem load_merged (pb : String → Bool) (s : LayerManager) (_node : xml.Element)
    (_file : String) (v : Version) (hf : FactoriesNameLayers s.mLayerFactory)
    (hlive : ∀ a ∈ s.active, s.heap.live a) (hdist : s.active.Nodup)
    (hwf : wellFormed pb s.mLayerFactory v [] (layerElements _node) = true) :
    s._load pb _node _file v =
      .done (LayerManager.merged
        { s with heap :=
          ⟨s.heap.cells ++ (builtLayers pb s.mLayerFactory v (layerElements _node)).map some⟩ }
        (List.range' s.heap.cells.length
          (builtLayers pb s.mLayerFactory v (layerElements _node)).length)) := by
  rw [load_eq_merge pb s _node _file v hf hwf]
  obtain ⟨h1, h2⟩ := load_valid s (builtLayers pb s.mLayerFactory v (layerElements _node))
    hlive hdist
  exact merge_eq _ _ h1 h2

/-- The store after `_load` has returned on well-formed data: the cells that
existed before followed by one cell per layer built. -/
theorem merged_length (s : LayerManager) (cand : List Nat) :
    (s.merged cand).heap.cells.length = s.heap.cells.length := by
  simp [LayerManager.merged, Store.length_freeAll]

theorem merged_get (s : LayerManager) (cand : List Nat) (a : Nat) :
    (s.merged cand).heap.get a =
      if a ∈ (reconcile s.heap.nameAt s.active cand).2 then none else s.heap.get a :=
  Store.get_freeAll _ _ _

/-- C19. Reload is idempotent: on a manager whose active layers are live,
distinct objects, and a description whose named `Layer` elements bear distinct
names and registered types (the factories naming their layer by the `name`
attribute), `_load` run twice in a row returns both times; after the second run
the active sequence holds exactly the addresses it held after the first, in the
same order; every object that existed after the first run is untouched (name,
variant, nodes, attached widgets); and the objects the second run constructed,
one per named element, are all deleted. -/
theorem load_idempotent (pb : String → Bool) (s : LayerManager) (_node : xml.Element)
    (_file : String) (v : Version)
    (hf : FactoriesNameLayers s.mLayerFactory)
    (hlive : ∀ a ∈ s.active, s.heap.live a) (hdist : s.active.Nodup)
    (huniq : (layerNames (layerElements _node)).Nodup)
    (hreg : ∀ e ∈ layerElements _node, (e.findAttribute? "name").isSome = true →
      (s.mLayerFactory (resolveType pb e v)).isSome = true) :
    ∃ s1 s2 : LayerManager, s._load pb _node _file v = .done s1 ∧
      s1._load pb _node _file v = .done s2 ∧
      s2.mLayerKeepers = s1.mLayerKeepers ∧
      (∀ a, a < s1.heap.cells.length → s2.heap.get a = s1.heap.get a) ∧
      s2.heap.cells.length
        = s1.heap.cells.length + (layerNames (layerElements _node)).length ∧
      (∀ a, s1.heap.cells.length ≤ a → s2.heap.get a = none) ∧
      s2.mLayerFactory = s1.mLayerFactory ∧ s2.mIsInitialise = s1.mIsInitialise := by
  have hwf : wellFormed pb s.mLayerFactory v [] (layerElements _node) = true :=
    (wellFormed_iff pb s.mLayerFactory v [] _).2 ⟨fun n _ => List.not_mem_nil n, huniq, hreg⟩
  -- the first run
  obtain ⟨hl1, hd1⟩ := load_valid s (builtLayers pb s.mLayerFactory v (layerElements _node))
    hlive hdist
  obtain ⟨s1, ps, hm1, hs1, hk1, -, hlv1, hn1⟩ := merge_result _ _ hl1 hd1
  have hload1 : s._load pb _node _file v = .done s1 :=
    (load_eq_merge pb s _node _file v hf hwf).trans hm1
  have hnames1 : ps.map s1.heap.nameAt = layerNames (layerElements _node) := by
    rw [hn1]
    exact ((range_names _ _).1).trans (builtLayers_names pb s.mLayerFactory v _ hf hreg)
  have hreg1 : s1.mLayerFactory = s.mLayerFactory := by rw [hs1]; rfl
  have hact1 : s1.active = ps := by
    rw [LayerManager.active, hk1, reduceOption_map_some]
  have hlive1 : ∀ a ∈ s1.active, s1.heap.live a := by rw [hact1]; exact hlv1
  have hdist1 : s1.active.Nodup := by
    rw [hact1]
    exact List.Nodup.of_map _ (hnames1 ▸ huniq)
  have hf1 : FactoriesNameLayers s1.mLayerFactory := hreg1 ▸ hf
  have hwf1 : wellFormed pb s1.mLayerFactory v [] (layerElements _node) = true := by
    rw [hreg1]; exact hwf
  have hregs1 : ∀ e ∈ layerElements _node, (e.findAttribute? "name").isSome = true →
      (s1.mLayerFactory (resolveType pb e v)).isSome = true := by rw [hreg1]; exact hreg
  -- the second run
  have hload2 := load_merged pb s1 _node _file v hf1 hlive1 hdist1 hwf1
  obtain ⟨hl2, hd2⟩ := load_valid s1 (builtLayers pb s1.mLayerFactory v (layerElements _node))
    hlive1 hdist1
  have hbl : (builtLayers pb s1.mLayerFactory v (layerElements _node)).length
      = (layerNames (layerElements _node)).length := by
    simpa using congrArg List.length (builtLayers_names pb s1.mLayerFactory v _ hf1 hregs1)
  have hcn : (List.range' s1.heap.cells.length
        (builtLayers pb s1.mLayerFactory v (layerElements _node)).length).map
        (Store.mk (s1.heap.cells ++
          (builtLayers pb s1.mLayerFactory v (layerElements _node)).map some)).nameAt
      = layerNames (layerElements _node) :=
    ((range_names _ _).1).trans (builtLayers_names pb s1.mLayerFactory v _ hf1 hregs1)
  have hkn : s1.active.map
        (Store.mk (s1.heap.cells ++
          (builtLayers pb s1.mLayerFactory v (layerElements _node)).map some)).nameAt
      = layerNames (layerElements _node) := by
    rw [← hnames1, hact1]
    refine List.map_congr_left (fun p hp => nameAt_congr ?_)
    exact Store.get_append_left (Store.live_lt (hlv1 p hp))
  have hsame := reconcile_same _ s1.active _ (hkn.trans hcn.symm) (hkn ▸ huniq)
  have hfreed := reconcile_same_freed _ s1.active _ (hkn.trans hcn.symm) (hkn ▸ huniq)
  refine ⟨s1, _, hload1, hload2, ?_, ?_, ?_, ?_, rfl, rfl⟩
  · refine (congrArg (List.map some) hsame).trans ?_
    rw [hact1]; exact hk1.symm
  · intro a ha
    rw [merged_get, if_neg]
    · exact Store.get_append_left ha
    · intro hm
      have := (List.mem_range'_1.1 (hfreed.mem_iff.1 hm)).1
      omega
  · rw [merged_length]
    simp [hbl]
  · intro a ha
    rw [merged_get]
    split_ifs with hm
    · rfl
    · refine Store.get_of_length_le ?_
      have hnr : a ∉ List.range' s1.heap.cells.length
          (builtLayers pb s1.mLayerFactory v (layerElements _node)).length :=
        fun h => hm (hfreed.mem_iff.2 h)
      rw [List.mem_range'_1] at hnr
      simp only [List.length_append, List.length_map]
      omega

/-- Witness of C19 on `sampleManager`: two loads of the description of `A`
and `B` leave the same two addresses active, the widget still attached to `A`. -/
theorem load_idempotent_witness :
    ∃ s1 s2 : LayerManager,
      sampleManager._load sampleParseBool sampleDescription "layers.xml" ⟨1, 1⟩ = .done s1 ∧
      s1._load sampleParseBool sampleDescription "layers.xml" ⟨1, 1⟩ = .done s2 ∧
      s2.mLayerKeepers = s1.mLayerKeepers ∧
      s2.heap.cells.length = s1.heap.cells.length + 2 := by
  obtain ⟨s1, s2, h1, h2, h3, -, h4, -⟩ :=
    load_idempotent sampleParseBool sampleManager sampleDescription "layers.xml" ⟨1, 1⟩
      builtinFactories_name (by decide) (by decide) (by decide) (by decide)
  exact ⟨s1, s2, h1, h2, h3, h4⟩

theorem getElem?_range (s n i : Nat) (hi : i < n) : (List.range' s n)[i]? = some (s + i) := by
  rw [List.getElem?_eq_getElem (by simpa using hi)]
  simp

/-- C20. A reused layer keeps its old variant: on a manager whose active
layers are live, distinct objects with distinct names, and a description whose
`Layer` elements are all named, with distinct names and registered types (the
factories naming their layer by the `name` attribute), when the element at
position `i` bears the name of the active layer at address `a`, `_load` returns
with `a` at position `i` of the active sequence, the object at `a` being
exactly what it was (its variant included, whatever type the element asks
for), and the layer built for the element deleted. -/
theorem load_keeps_variant (pb : String → Bool) (s : LayerManager) (_node : xml.Element)
    (_file : String) (v : Version) (a i : Nat) (e : xml.Element)
    (hf : FactoriesNameLayers s.mLayerFactory)
    (hlive : ∀ x ∈ s.active, s.heap.live x)
    (huA : (s.active.map s.heap.nameAt).Nodup)
    (hnamed : ∀ x ∈ layerElements _node, (x.findAttribute? "name").isSome = true)
    (huniq : (layerNames (layerElements _node)).Nodup)
    (hreg : ∀ x ∈ layerElements _node,
      (s.mLayerFactory (resolveType pb x v)).isSome = true)
    (ha : a ∈ s.active) (he : (layerElements _node)[i]? = some e)
    (hname : e.findAttribute "name" = s.heap.nameAt a) :
    ∃ s2 : LayerManager, s._load pb _node _file v = .done s2 ∧
      s2.mLayerKeepers[i]? = some (some a) ∧ s2.heap.get a = s.heap.get a ∧
      s2.heap.cells.length = s.heap.cells.length + (layerElements _node).length ∧
      s2.heap.get (s.heap.cells.length + i) = none := by
  have hreg2 : ∀ x ∈ layerElements _node, (x.findAttribute? "name").isSome = true →
      (s.mLayerFactory (resolveType pb x v)).isSome = true := fun x hx _ => hreg x hx
  have hwf : wellFormed pb s.mLayerFactory v [] (layerElements _node) = true :=
    (wellFormed_iff pb s.mLayerFactory v [] _).2 ⟨fun n _ => List.not_mem_nil n, huniq, hreg2⟩
  have hdist : s.active.Nodup := List.Nodup.of_map _ huA
  have hload := load_merged pb s _node _file v hf hlive hdist hwf
  obtain ⟨-, hd1⟩ := load_valid s (builtLayers pb s.mLayerFactory v (layerElements _node))
    hlive hdist
  have hbn := builtLayers_names pb s.mLayerFactory v _ hf hreg2
  have hall := layerNames_of_named _ hnamed
  have hbl : (builtLayers pb s.mLayerFactory v (layerElements _node)).length
      = (layerElements _node).length := by
    simpa using congrArg List.length (hbn.trans hall)
  have hi : i < (builtLayers pb s.mLayerFactory v (layerElements _node)).length := by
    rw [hbl]; exact (List.getElem?_eq_some.1 he).1
  have hcn : (List.range' s.heap.cells.length
        (builtLayers pb s.mLayerFactory v (layerElements _node)).length).map
        (Store.mk (s.heap.cells ++
          (builtLayers pb s.mLayerFactory v (layerElements _node)).map some)).nameAt
      = (layerElements _node).map (fun x => x.findAttribute "name") :=
    (((range_names _ _).1).trans hbn).trans hall
  have hc := getElem?_range s.heap.cells.length _ i hi
  have hka : (Store.mk (s.heap.cells ++
        (builtLayers pb s.mLayerFactory v (layerElements _node)).map some)).nameAt a
      = s.heap.nameAt a :=
    nameAt_congr (Store.get_append_left (Store.live_lt (hlive a ha)))
  have hnc : (Store.mk (s.heap.cells ++
        (builtLayers pb s.mLayerFactory v (layerElements _node)).map some)).nameAt
        (s.heap.cells.length + i) = s.heap.nameAt a := by
    have := congrArg (fun l => l[i]?) hcn
    simp only [List.getElem?_map, hc, he, Option.map_some', Option.some.injEq] at this
    rw [this, hname]
  have hukeep : (s.active.map (Store.mk (s.heap.cells ++
        (builtLayers pb s.mLayerFactory v (layerElements _node)).map some)).nameAt).Nodup := by
    have : s.active.map (Store.mk (s.heap.cells ++
        (builtLayers pb s.mLayerFactory v (layerElements _node)).map some)).nameAt
        = s.active.map s.heap.nameAt :=
      List.map_congr_left
        (fun p hp => nameAt_congr (Store.get_append_left (Store.live_lt (hlive p hp))))
    rw [this]; exact huA
  have hucand : ((List.range' s.heap.cells.length
        (builtLayers pb s.mLayerFactory v (layerElements _node)).length).map
        (Store.mk (s.heap.cells ++
          (builtLayers pb s.mLayerFactory v (layerElements _node)).map some)).nameAt).Nodup := by
    rw [hcn, ← hall]; exact huniq
  obtain ⟨g1, g2⟩ := reconcile_reuse _ s.active _ i a (s.heap.cells.length + i) hukeep ha hc
    (hka.trans hnc.symm) (fun k x hk hx => nodup_first _ hucand hc hx hk)
  refine ⟨_, hload, ?_, ?_, ?_, ?_⟩
  · exact (List.getElem?_map _ _ _).trans (congrArg (Option.map some) g1)
  · exact (merged_get_kept hd1 (List.getElem?_mem g1)).trans
      (Store.get_append_left (Store.live_lt (hlive a ha)))
  · rw [merged_length]
    simp [hbl]
  · exact merged_get_freed g2

/-- Witness of C20 on `sampleManager`: the description asks for `A` as an
overlapped layer, the active layer `A` stays the simple layer it was. -/
theorem load_keeps_variant_witness :
    ∃ s2 : LayerManager,
      sampleManager._load sampleParseBool
        (.mk "MyGUI" [] [layerElement [("name", "A"), ("type", "OverlappedLayer")]])
        "layers.xml" ⟨1, 1⟩ = .done s2 ∧
      s2.mLayerKeepers[0]? = some (some 0) ∧
      s2.heap.get 0 = some ⟨"A", "SimpleLayer", [⟨some 7⟩]⟩ ∧ s2.heap.get 4 = none := by
  obtain ⟨s2, h1, h2, h3, -, h4⟩ :=
    load_keeps_variant sampleParseBool sampleManager
      (.mk "MyGUI" [] [layerElement [("name", "A"), ("type", "OverlappedLayer")]])
      "layers.xml" ⟨1, 1⟩ 0 0 (layerElement [("name", "A"), ("type", "OverlappedLayer")])
      builtinFactories_name (by decide) (by decide) (by decide) (by decide) (by decide)
      (by decide) rfl (by decide)
  exact ⟨s2, h1, h2, h3.trans (by decide), h4⟩

/-! ## The invariant of the active sequence -/

theorem steady_of_same (s s2 : LayerManager) (hs : s.Steady)
    (hk : s2.mLayerKeepers = s.mLayerKeepers)
    (hg : ∀ a ∈ s.active, s2.heap.live a ∧ s2.heap.nameAt a = s.heap.nameAt a) :
    s2.Steady := by
  have hact : s2.active = s.active := by simp [LayerManager.active, hk]
  refine ⟨by rw [hact, hk]; exact hs.1, ?_, ?_⟩
  · rw [hact]; exact fun a ha => (hg a ha).1
  · rw [hact, List.map_congr_left (fun a ha => (hg a ha).2)]
    exact hs.2.2

theorem steady_nil (s : LayerManager) (h0 : s.mLayerKeepers = []) : s.Steady := by
  have : s.active = [] := by simp [LayerManager.active, h0]
  unfold LayerManager.Steady
  rw [this, h0]
  exact ⟨rfl, fun a ha => (by cases ha), List.nodup_nil⟩

theorem steady_load (pb : String → Bool) (s : LayerManager) (_node : xml.Element)
    (_file : String) (v : Version) (hs : s.Steady) (hf : FactoriesNameLayers s.mLayerFactory) :
    ∃ s2 : LayerManager, (s._load pb _node _file v).after = some s2 ∧ s2.Steady ∧
      s2.mLayerFactory = s.mLayerFactory := by
  obtain ⟨hnn, hlive, hnames⟩ := hs
  have hdist : s.active.Nodup := List.Nodup.of_map _ hnames
  cases hwf : wellFormed pb s.mLayerFactory v [] (layerElements _node) with
  | true =>
    obtain ⟨-, huniq, hreg⟩ := (wellFormed_iff pb s.mLayerFactory v [] _).1 hwf
    obtain ⟨hl1, hd1⟩ := load_valid s (builtLayers pb s.mLayerFactory v (layerElements _node))
      hlive hdist
    obtain ⟨s2, ps, hm, hs2, hk, -, hlv, hn⟩ := merge_result _ _ hl1 hd1
    have hload : s._load pb _node _file v = .done s2 :=
      (load_eq_merge pb s _node _file v hf hwf).trans hm
    have hact : s2.active = ps := by rw [LayerManager.active, hk, reduceOption_map_some]
    refine ⟨s2, by rw [hload]; rfl, ⟨by rw [hact]; exact hk, by rw [hact]; exact hlv, ?_⟩,
      by rw [hs2]; rfl⟩
    rw [hact, hn]
    have := ((range_names (builtLayers pb s.mLayerFactory v (layerElements _node))
      s.heap.cells).1).trans (builtLayers_names pb s.mLayerFactory v _ hf hreg)
    exact this ▸ huniq
  | false =>
    obtain ⟨msg, objs, hr⟩ := loadLoop_raised pb _file v (layerElements _node) [] s hf
      (by simp) (by simpa using hwf)
    simp only [List.map_nil] at hr
    refine ⟨{ s with heap := ⟨s.heap.cells ++ objs.map some⟩ }, ?_, ?_, rfl⟩
    · unfold LayerManager._load
      rw [hr]; rfl
    · refine steady_of_same s _ ⟨hnn, hlive, hnames⟩ rfl ?_
      intro a ha
      have hg : (Store.mk (s.heap.cells ++ objs.map some)).get a = s.heap.get a :=
        Store.get_append_left (Store.live_lt (hlive a ha))
      exact ⟨live_congr hg (hlive a ha), nameAt_congr hg⟩

theorem steady_clear (s : LayerManager) (hs : s.Steady) :
    ∃ s2 : LayerManager, s.clear.after = some s2 ∧ s2.Steady ∧
      s2.mLayerFactory = s.mLayerFactory := by
  obtain ⟨hnn, hlive, hnames⟩ := hs
  refine ⟨LayerManager.mk s.mIsInitialise [] s.mLayerFactory (s.heap.freeAll s.active),
    by rw [clear_eq s hnn hlive (List.Nodup.of_map _ hnames)]; rfl, steady_nil _ rfl, rfl⟩

theorem steady_detach (s : LayerManager) (_item : WidgetPtr) (hs : s.Steady) :
    ∃ s2 : LayerManager, (s.detachFromLayer _item).after = some s2 ∧ s2.Steady ∧
      s2.mLayerFactory = s.mLayerFactory := by
  cases _item with
  | none => exact ⟨s, rfl, hs, rfl⟩
  | some w =>
    refine ⟨{ s with heap := s.heap.detachFromLayer w.addr }, rfl, ?_, rfl⟩
    exact steady_of_same s _ hs rfl
      (fun a ha => ⟨Store.live_detach (hs.2.1 a ha), Store.nameAt_detach _ _ _⟩)

theorem steady_attach (s : LayerManager) (_name : String) (_item : WidgetPtr) (hs : s.Steady) :
    ∃ s2 : LayerManager, (s.attachToLayerKeeper _name _item).after = some s2 ∧ s2.Steady ∧
      s2.mLayerFactory = s.mLayerFactory := by
  cases _item with
  | none => exact ⟨s, rfl, hs, rfl⟩
  | some w =>
    unfold LayerManager.attachToLayerKeeper
    by_cases hroot : w.isRootWidget = true
    · simp only [hroot, if_true]
      have hl2 : ∀ p ∈ s.active, (s.heap.detachFromLayer w.addr).live p :=
        fun p hp => Store.live_detach (hs.2.1 p hp)
      rw [hs.1, attachLoop_eq _name w.addr _ s.active hl2]
      cases hfind : s.active.find?
          (fun p => decide ((s.heap.detachFromLayer w.addr).nameAt p = _name)) with
      | none =>
        refine ⟨{ s with heap := s.heap.detachFromLayer w.addr }, by simp [← hs.1]; rfl, ?_, rfl⟩
        exact steady_of_same s _ hs rfl
          (fun a ha => ⟨Store.live_detach (hs.2.1 a ha), Store.nameAt_detach _ _ _⟩)
      | some a1 =>
        have ha1 : a1 ∈ s.active := List.mem_of_find?_eq_some hfind
        obtain ⟨l, hg⟩ := Store.live_iff.1 (hl2 a1 ha1)
        simp only [hg, Outcome.bind_done]
        refine ⟨LayerManager.mk s.mIsInitialise s.mLayerKeepers s.mLayerFactory
          ((s.heap.detachFromLayer w.addr).put a1
            (ILayer.mk l.name l.type (l.nodes ++ [⟨some w.addr⟩]))),
          by simp only [← hs.1]; rfl, ?_, rfl⟩
        refine steady_of_same s _ hs rfl ?_
        intro a ha
        have hput := Store.get_put (ILayer.mk l.name l.type (l.nodes ++ [⟨some w.addr⟩]))
          (hl2 a1 ha1) a
        by_cases hab : a1 = a
        · subst hab
          simp only [if_true] at hput
          refine ⟨live_of_get hput, ?_⟩
          rw [nameAt_of_get hput, ← Store.nameAt_detach s.heap w.addr a1, nameAt_of_get hg]
        · simp only [hab, if_false] at hput
          exact ⟨live_congr hput (hl2 a ha),
            (nameAt_congr hput).trans (Store.nameAt_detach _ _ _)⟩
    · simp only [hroot, if_false]
      exact ⟨s, rfl, hs, rfl⟩

theorem steady_render (s : LayerManager) (u : Bool) (hs : s.Steady) :
    (s.doRender u).afterQuery s = some s := by
  unfold LayerManager.doRender
  rw [hs.1, doRenderLoop_eq s.heap u s.active hs.2.1]; rfl

theorem steady_hitTest (pick : ILayer → Int → Int → Option Nat) (s : LayerManager)
    (x y : Int) (hs : s.Steady) :
    (s.getWidgetFromPoint pick x y).afterQuery s = some s := by
  unfold LayerManager.getWidgetFromPoint
  rw [hs.1, ← List.map_reverse, hitLoop_eq pick s.heap x y _
    (fun p hp => hs.2.1 p (List.mem_reverse.1 hp))]
  rfl

theorem steady_perform (pb : String → Bool) (pick : ILayer → Int → Int → Option Nat)
    (s : LayerManager) (op : Op) (hs : s.Steady) (hf : FactoriesNameLayers s.mLayerFactory) :
    ∃ s2 : LayerManager, s.perform pb pick op = some s2 ∧ s2.Steady ∧
      s2.mLayerFactory = s.mLayerFactory := by
  cases op with
  | load n f v => exact steady_load pb s n f v hs hf
  | clear => exact steady_clear s hs
  | attach n w => exact steady_attach s n w hs
  | detach w => exact steady_detach s w hs
  | render u => exact ⟨s, steady_render s u hs, hs, rfl⟩
  | hitTest x y => exact ⟨s, steady_hitTest pick s x y hs, hs, rfl⟩

theorem steady_run (pb : String → Bool) (pick : ILayer → Int → Int → Option Nat)
    (ops : List Op) (s : LayerManager) (hs : s.Steady)
    (hf : FactoriesNameLayers s.mLayerFactory) :
    ∃ s2 : LayerManager, LayerManager.run pb pick ops s = some s2 ∧ s2.Steady ∧
      s2.mLayerFactory = s.mLayerFactory := by
  induction ops generalizing s with
  | nil => exact ⟨s, rfl, hs, rfl⟩
  | cons op ops ih =>
    obtain ⟨s1, h1, hs1, hr1⟩ := steady_perform pb pick s op hs hf
    obtain ⟨s2, h2, hs2, hr2⟩ := ih s1 hs1 (hr1 ▸ hf)
    exact ⟨s2, by simp only [LayerManager.run, h1, h2], hs2, hr2.trans hr1⟩

/-- C11. Active-sequence invariant: from a manager with no active layer (and
factories that name their layer by the `name` attribute), every sequence of
`_load` (returning or failing), `clear`, attach, detach, render and hit-test
operations runs without fault and leaves a state whose active sequence has no
null entry, holds live layers only, and has no two layers with the same name. -/
theorem active_invariant (pb : String → Bool) (pick : ILayer → Int → Int → Option Nat)
    (s0 : LayerManager) (ops : List Op)
    (h0 : s0.mLayerKeepers = []) (hf : FactoriesNameLayers s0.mLayerFactory) :
    ∃ s : LayerManager, LayerManager.run pb pick ops s0 = some s ∧
      (∀ p ∈ s.mLayerKeepers, p ≠ none) ∧ (∀ a ∈ s.active, s.heap.live a) ∧
      (s.active.map s.heap.nameAt).Nodup ∧
      (∀ i j a b : Nat, i ≠ j → s.mLayerKeepers[i]? = some (some a) →
        s.mLayerKeepers[j]? = some (some b) → s.heap.nameAt a ≠ s.heap.nameAt b) := by
  have hs0 : s0.Steady := steady_nil s0 h0
  obtain ⟨s, hrun, ⟨hnn, hlive, hnames⟩, -⟩ := steady_run pb pick ops s0 hs0 hf
  refine ⟨s, hrun, ?_, hlive, hnames, ?_⟩
  · intro p hp
    rw [hnn] at hp
    obtain ⟨a, -, rfl⟩ := List.mem_map.1 hp
    simp
  · intro i j a b hij hi hj e
    rw [hnn, List.getElem?_map] at hi hj
    have hi2 : s.active[i]? = some a := by
      cases h : s.active[i]? with
      | none => rw [h] at hi; cases hi
      | some x => rw [h] at hi; simp at hi; rw [hi]
    have hj2 : s.active[j]? = some b := by
      cases h : s.active[j]? with
      | none => rw [h] at hj; cases hj
      | some x => rw [h] at hj; simp at hj; rw [hj]
    rcases Nat.lt_or_gt_of_ne hij with hlt | hgt
    · exact nodup_first s.heap.nameAt hnames hj2 hi2 hlt e
    · exact nodup_first s.heap.nameAt hnames hi2 hj2 hgt e.symm

/-- Witness of C11: a load, an attach, a failing load of two layers named `A`,
a render, a hit test, a detach and a reload, from the empty manager. -/
theorem active_invariant_witness :
    ∃ s : LayerManager,
      LayerManager.run sampleParseBool topItem
        [.load sampleDescription "layers.xml" ⟨1, 1⟩, .attach "A" (some ⟨7, true⟩),
          .load (.mk "MyGUI" [] [layerElement [("name", "A"), ("type", "SimpleLayer")],
            layerElement [("name", "A"), ("type", "OverlappedLayer")]]) "bad.xml" ⟨1, 1⟩,
          .render true, .hitTest 0 0, .detach (some ⟨7, true⟩),
          .load sampleDescription "layers.xml" ⟨1, 1⟩, .clear] emptyManager = some s ∧
      (∀ p ∈ s.mLayerKeepers, p ≠ none) ∧ (s.active.map s.heap.nameAt).Nodup := by
  obtain ⟨s, h1, h2, -, h3, -⟩ := active_invariant sampleParseBool topItem emptyManager
    [.load sampleDescription "layers.xml" ⟨1, 1⟩, .attach "A" (some ⟨7, true⟩),
      .load (.mk "MyGUI" [] [layerElement [("name", "A"), ("type", "SimpleLayer")],
        layerElement [("name", "A"), ("type", "OverlappedLayer")]]) "bad.xml" ⟨1, 1⟩,
      .render true, .hitTest 0 0, .detach (some ⟨7, true⟩),
      .load sampleDescription "layers.xml" ⟨1, 1⟩, .clear] rfl builtinFactories_name
  exact ⟨s, h1, h2, h3⟩

/-! ## Witnesses of the registry and lifecycle claims -/

/-- Witness of C12: `SimpleLayer` is registered in the fresh manager, and
refused in a manager that already holds it. -/
theorem addLayerFactory_spec_witness :
    (∃ s2 : LayerManager,
      freshManager.addLayerFactory "SimpleLayer" SimpleLayerFactory = .done s2 ∧
      s2.mLayerFactory "SimpleLayer" = some SimpleLayerFactory) ∧
    (∃ msg s2, sampleManager.addLayerFactory "SimpleLayer" OverlappedLayerFactory
      = .raised msg s2) := by
  obtain ⟨s2, h1, h2, -⟩ :=
    (addLayerFactory_spec freshManager "SimpleLayer" SimpleLayerFactory).2.2 rfl
  exact ⟨⟨s2, h1, h2⟩,
    (addLayerFactory_spec sampleManager "SimpleLayer" OverlappedLayerFactory).1.2 rfl⟩

/-- Witness of C13: `SimpleLayer` is removed from `sampleManager`, its removal
from the fresh manager is refused, and adding then removing a key the fresh
manager lacks gives the fresh manager back. -/
theorem removeLayerFactory_spec_witness :
    (∃ s2 : LayerManager, sampleManager.removeLayerFactory "SimpleLayer" true = .done s2 ∧
      (s2.mLayerFactory "SimpleLayer").isSome = false) ∧
    (∃ msg s2, freshManager.removeLayerFactory "SimpleLayer" false = .raised msg s2) ∧
    (∃ s1 s2 : LayerManager, freshManager.addLayerFactory "Fancy" SimpleLayerFactory = .done s1 ∧
      s1.removeLayerFactory "Fancy" false = .done s2 ∧ s2 = freshManager) := by
  obtain ⟨s2, h1, h2, -⟩ :=
    (removeLayerFactory_spec sampleManager "SimpleLayer" true).2.2.1 rfl
  obtain ⟨t1, t2, g1, g2, -, g3⟩ :=
    (removeLayerFactory_spec freshManager "Fancy" false).2.2.2.1 SimpleLayerFactory rfl
  exact ⟨⟨s2, h1, h2⟩, (removeLayerFactory_spec freshManager "SimpleLayer" false).1.2 rfl,
    ⟨t1, t2, g1, g2, g3⟩⟩

/-- Witness of C14, amended, on `sampleManager`: `shutdown` returns, the flag
is false, no layer is active and the layer `A` is deleted. -/
theorem shutdown_spec_witness :
    ∃ s2 : LayerManager, sampleManager.shutdown = .done s2 ∧ s2.mIsInitialise = false ∧
      s2.mLayerKeepers = [] ∧ s2.heap.get 0 = none ∧ s2.mLayerFactory "SimpleLayer" = none := by
  obtain ⟨s2, h1, h2, h3, h4, -, h5, -⟩ :=
    (shutdown_spec sampleManager).2.1 rfl rfl rfl (by decide) (by decide) (by decide)
  exact ⟨s2, h1, h2, h3, h4 0 (by decide), h5⟩

/-- Witness of C15, amended, on the fresh manager: `initialise` returns with
the flag true and both built-in factories registered; a second `initialise`
is refused. -/
theorem initialise_spec_witness :
    ∃ s2 : LayerManager, freshManager.initialise = .done s2 ∧ s2.mIsInitialise = true ∧
      s2.mLayerFactory "SimpleLayer" = some SimpleLayerFactory ∧
      s2.mLayerFactory "OverlappedLayer" = some OverlappedLayerFactory ∧
      ∃ msg, s2.initialise = .raised msg s2 := by
  obtain ⟨s2, h1, h2, h3, h4, -⟩ := (initialise_spec freshManager).2.1 rfl rfl rfl
  exact ⟨s2, h1, h2, h3, h4, (initialise_spec s2).1 h2⟩


end MyGUI
